import Mathlib

/-!
Verification of the core graph algorithms of the Lfn-stonks repository
(`src/graph_library.py`): the ESU connected-subgraph enumerator
(`enumerate_subgraphs` / `extend_subgraph` / `exclusive_neighborhood`),
the undirected neighbour set (`all_neighbors`), the random connected
sampler (`connected_random_subgraph`) and the Floyd-Warshall based
closeness centrality (`closeness_centrality_matrix`).

Python floats are modelled as exact rationals (`ℚ`), the `+infinity`
sentinel of the distance matrix as `⊤` in `WithTop ℚ`, Python sets of
nodes as `Finset ℕ`, and the calls to `random.choice` as a
caller-supplied choice function (`Pick`) so that every theorem holds for
every outcome of the random draws.
-/

namespace Stonks

/-! ## The igraph model used by the ESU enumerator

`graph_library.py` runs ESU over an `igraph.Graph`.  Vertices of an
igraph graph are the indices `0 .. n-1`.  `G.neighbors(v, mode="out")`
and `G.neighborhood(v, mode="out")` follow the stored edge relation in
the outgoing direction (for an undirected igraph graph the relation is
symmetric and `mode` is irrelevant); `neighborhood` additionally
contains the vertex itself. -/

structure IGraph where
  n : ℕ
  adj : ℕ → ℕ → Bool

/-- `G.neighbors(v, mode="out")`, as the set of out-neighbours of `v`
among the vertices `0 .. n-1` (`v` itself appears exactly when the graph
has a self-loop at `v`, as in igraph). -/
def neighbors_out (G : IGraph) (v : ℕ) : Finset ℕ :=
  (Finset.range G.n).filter (fun u => G.adj v u)

/-- `G.neighborhood(v, mode="out")`: igraph's order-1 neighbourhood,
which always contains the vertex itself. -/
def neighborhood_out (G : IGraph) (v : ℕ) : Finset ℕ :=
  insert v (neighbors_out G v)

/-- `exclusive_neighborhood(G, v, Vp)` from `graph_library.py`:
`set(G.neighborhood(v, mode="out")) - {u for sublist in G.neighborhood(list(Vp), mode="out") for u in sublist}`. -/
def exclusive_neighborhood (G : IGraph) (v : ℕ) (Vp : Finset ℕ) : Finset ℕ :=
  neighborhood_out G v \ Vp.biUnion (fun p => neighborhood_out G p)

/-- A model of `random.choice` on a non-empty set of nodes: an arbitrary
choice function returning a member of the set.  Quantifying theorems
over all `Pick`s covers every outcome of the random draws. -/
def Pick : Type :=
  (s : Finset ℕ) → s.Nonempty → {x // x ∈ s}

/-- One concrete choice function (used to instantiate theorems on
concrete inputs): always pick the minimum. -/
def minPick : Pick := fun s h => ⟨s.min' h, s.min'_mem h⟩

/-- `extend_subgraph(G, Vsubgraph, Vextension, v, k, k_subgraphs)` from
`graph_library.py`.  The Python function appends the discovered subgraph
vertex sets to the mutable list `k_subgraphs`; here the function returns
the list of sets it appends, in the same order.  The `while` loop over
`Vextension` is the recursion on `Vext.card`; the recursive call on the
grown `Vsubgraph` is guarded by a fuel parameter (the Python recursion
depth), which is irrelevant as soon as `k - Vsub.card ≤ fuel`
(`extend_subgraph` is only ever entered with `fuel = G.n ≥ k`). -/
def extend_subgraph (G : IGraph) (pick : Pick) :
    ℕ → Finset ℕ → Finset ℕ → ℕ → ℕ → List (Finset ℕ)
  | fuel, Vsub, Vext, v, k =>
    if Vsub.card = k then [Vsub]
    else if h : Vext.Nonempty then
      -- w = random.choice(tuple(Vextension)); Vextension.remove(w)
      let w := (pick Vext h).1
      let Vext' := Vext.erase w
      let Nexcl := exclusive_neighborhood G w Vsub
      let VpExt := Vext' ∪ Nexcl.filter (fun u => v < u)
      (if hf0 : fuel = 0 then [] else
        extend_subgraph G pick (fuel - 1) (insert w Vsub) VpExt v k)
      ++ extend_subgraph G pick fuel Vsub Vext' v k
    else []
termination_by fuel _ Vext _ _ => (fuel, Vext.card)
decreasing_by
  · exact Prod.Lex.left _ _ (by omega)
  · exact Prod.Lex.right _ (Finset.card_erase_lt_of_mem (pick Vext h).2)

/-- `enumerate_subgraphs(G, k)` from `graph_library.py`: for every vertex
`v` (in index order) start ESU from `Vsubgraph = {v}` with
`Vextension = {u for u in G.neighbors(v, mode="out") if u > v}`. -/
def enumerate_subgraphs (G : IGraph) (pick : Pick) (k : ℕ) : List (Finset ℕ) :=
  (List.range G.n).flatMap (fun v =>
    extend_subgraph G pick G.n {v} ((neighbors_out G v).filter (fun u => v < u)) v k)

/-! Unfolding equations for `extend_subgraph` (being defined by
well-founded recursion it does not reduce definitionally). -/

theorem extend_subgraph_done (G : IGraph) (pick : Pick) (fuel : ℕ)
    (Vsub Vext : Finset ℕ) (v k : ℕ) (hk : Vsub.card = k) :
    extend_subgraph G pick fuel Vsub Vext v k = [Vsub] := by
  rw [extend_subgraph]
  simp [hk]

theorem extend_subgraph_empty (G : IGraph) (pick : Pick) (fuel : ℕ)
    (Vsub : Finset ℕ) (v k : ℕ) (hk : Vsub.card ≠ k) :
    extend_subgraph G pick fuel Vsub ∅ v k = [] := by
  rw [extend_subgraph]
  simp [hk]

theorem extend_subgraph_step (G : IGraph) (pick : Pick) (fuel : ℕ)
    (Vsub Vext : Finset ℕ) (v k : ℕ) (hk : Vsub.card ≠ k) (h : Vext.Nonempty) :
    extend_subgraph G pick fuel Vsub Vext v k =
      (if fuel = 0 then [] else
        extend_subgraph G pick (fuel - 1) (insert (pick Vext h).1 Vsub)
          ((Vext.erase (pick Vext h).1) ∪
            (exclusive_neighborhood G (pick Vext h).1 Vsub).filter (fun u => v < u))
          v k)
      ++ extend_subgraph G pick fuel Vsub (Vext.erase (pick Vext h).1) v k := by
  rw [extend_subgraph]
  simp [hk, h]

/-! ## Connectivity (ignoring edge direction) for the igraph model -/

/-- Undirected adjacency: `u` and `v` are joined by an edge in some
direction. -/
def adjU (G : IGraph) (u v : ℕ) : Prop :=
  G.adj u v ∨ G.adj v u

/-- A step of an undirected walk staying inside the node set `S`. -/
def stepIn (G : IGraph) (S : Finset ℕ) (x y : ℕ) : Prop :=
  x ∈ S ∧ y ∈ S ∧ adjU G x y

/-- The subgraph induced by `S` is connected ignoring edge direction:
any two of its nodes are joined by an undirected walk inside `S`. -/
def connIn (G : IGraph) (S : Finset ℕ) : Prop :=
  ∀ a ∈ S, ∀ b ∈ S, Relation.ReflTransGen (stepIn G S) a b

/-- Out-neighbours of a whole node set. -/
def nbrsSet (G : IGraph) (T : Finset ℕ) : Finset ℕ :=
  T.biUnion (neighbors_out G)

/-- All edges of an igraph graph join valid vertex indices. -/
def IGraph.wellFormed (G : IGraph) : Prop :=
  ∀ a b, G.adj a b = true → a < G.n ∧ b < G.n

/-- An undirected igraph graph: the stored relation is symmetric. -/
def IGraph.symm (G : IGraph) : Prop :=
  ∀ a b, G.adj a b = G.adj b a

theorem adjU_comm (G : IGraph) {u v : ℕ} (h : adjU G u v) : adjU G v u :=
  h.symm

theorem mem_neighbors_out (G : IGraph) {u v : ℕ} :
    u ∈ neighbors_out G v ↔ u < G.n ∧ G.adj v u := by
  simp [neighbors_out]

theorem mem_nbrsSet (G : IGraph) {u : ℕ} {T : Finset ℕ} :
    u ∈ nbrsSet G T ↔ ∃ p ∈ T, u ∈ neighbors_out G p := by
  simp [nbrsSet]

theorem nbrsSet_mono (G : IGraph) {T T' : Finset ℕ} (h : T ⊆ T') :
    nbrsSet G T ⊆ nbrsSet G T' := by
  intro u hu
  rw [mem_nbrsSet] at hu ⊢
  obtain ⟨p, hp, hup⟩ := hu
  exact ⟨p, h hp, hup⟩

theorem nbrsSet_insert (G : IGraph) (w : ℕ) (T : Finset ℕ) :
    nbrsSet G (insert w T) = neighbors_out G w ∪ nbrsSet G T :=
  Finset.biUnion_insert

/-- igraph's closed neighbourhoods of the nodes of `T`, flattened:
the union of `T` with its neighbour set. -/
theorem biUnion_neighborhood_out (G : IGraph) (T : Finset ℕ) :
    T.biUnion (fun p => neighborhood_out G p) = T ∪ nbrsSet G T := by
  ext u
  simp only [Finset.mem_biUnion, neighborhood_out, Finset.mem_insert,
    Finset.mem_union, mem_nbrsSet]
  constructor
  · rintro ⟨p, hp, rfl | hu⟩
    · exact Or.inl hp
    · exact Or.inr ⟨p, hp, hu⟩
  · rintro (hu | ⟨p, hp, hu⟩)
    · exact ⟨u, hu, Or.inl rfl⟩
    · exact ⟨p, hp, Or.inr hu⟩

theorem reach_mono (G : IGraph) {S T : Finset ℕ} (hST : S ⊆ T) {a b : ℕ}
    (h : Relation.ReflTransGen (stepIn G S) a b) :
    Relation.ReflTransGen (stepIn G T) a b :=
  Relation.ReflTransGen.mono (fun _ _ hxy => ⟨hST hxy.1, hST hxy.2.1, hxy.2.2⟩) h

/-- Adding a node adjacent to a member keeps the induced subgraph
connected. -/
theorem connIn_insert (G : IGraph) {S : Finset ℕ} {p w : ℕ}
    (hconn : connIn G S) (hp : p ∈ S) (hadj : adjU G p w) :
    connIn G (insert w S) := by
  have hsub : S ⊆ insert w S := Finset.subset_insert w S
  have hto : ∀ b ∈ S, Relation.ReflTransGen (stepIn G (insert w S)) w b := by
    intro b hb
    exact Relation.ReflTransGen.head
      ⟨Finset.mem_insert_self w S, hsub hp, adjU_comm G hadj⟩
      (reach_mono G hsub (hconn p hp b hb))
  intro a ha b hb
  rcases Finset.mem_insert.mp ha with ha' | ha'
  · subst ha'
    rcases Finset.mem_insert.mp hb with hb' | hb'
    · subst hb'
      exact Relation.ReflTransGen.refl
    · exact hto b hb'
  · rcases Finset.mem_insert.mp hb with hb' | hb'
    · subst hb'
      exact Relation.ReflTransGen.tail
        (reach_mono G hsub (hconn a ha' p hp))
        ⟨hsub hp, Finset.mem_insert_self b S, hadj⟩
    · exact reach_mono G hsub (hconn a ha' b hb')

/-- A walk inside `S` that starts in `A` and ends outside `A` crosses
the boundary of `A`. -/
theorem reach_crossing (G : IGraph) {S A : Finset ℕ} {a d : ℕ}
    (h : Relation.ReflTransGen (stepIn G S) a d) (ha : a ∈ A) (hd : d ∉ A) :
    ∃ x ∈ A, ∃ y, y ∈ S ∧ y ∉ A ∧ adjU G x y := by
  induction h with
  | refl => exact absurd ha hd
  | tail _ hstep ih =>
    rename_i c d' _
    by_cases hc : c ∈ A
    · exact ⟨c, hc, d', hstep.2.1, hd, hstep.2.2⟩
    · exact ih hc

/-- In a connected induced subgraph, any proper non-empty node subset
has an out-neighbour (symmetric graphs) among the remaining nodes. -/
theorem connIn_boundary (G : IGraph) (hsym : G.symm) (hwf : G.wellFormed)
    {S A : Finset ℕ} (hconn : connIn G S) (hAS : A ⊆ S)
    {a : ℕ} (haA : a ∈ A) {d : ℕ} (hdS : d ∈ S) (hdA : d ∉ A) :
    ∃ y ∈ S, y ∉ A ∧ y ∈ nbrsSet G A := by
  obtain ⟨x, hx, y, hyS, hyA, hxy⟩ :=
    reach_crossing G (hconn a (hAS haA) d hdS) haA hdA
  have hadj : G.adj x y = true := by
    rcases hxy with h' | h'
    · exact h'
    · rw [hsym]; exact h'
  refine ⟨y, hyS, hyA, ?_⟩
  rw [mem_nbrsSet]
  exact ⟨x, hx, (mem_neighbors_out G).mpr ⟨(hwf x y hadj).2, hadj⟩⟩

/-! ## Exact characterisation of the ESU recursion -/

/-- The sets recorded by `extend_subgraph(G, Vsub, Vext, v, k, _)`:
supersets `S` of `Vsub` of size `k` that are connected (ignoring
direction), whose new nodes all have index above the root `v`, and whose
new nodes adjacent to `Vsub` are all still available in `Vext`. -/
def esuSpec (G : IGraph) (Vsub Vext : Finset ℕ) (v k : ℕ) (S : Finset ℕ) : Prop :=
  Vsub ⊆ S ∧ S.card = k ∧ (∀ u ∈ S, u ∉ Vsub → v < u) ∧
    (∀ u ∈ S, u ∉ Vsub → u ∈ nbrsSet G Vsub → u ∈ Vext) ∧ connIn G S

theorem esuSpec_mono_ext (G : IGraph) {Vsub Vext Vext2 : Finset ℕ} {v k : ℕ}
    {S : Finset ℕ} (hE : Vext ⊆ Vext2) (h : esuSpec G Vsub Vext v k S) :
    esuSpec G Vsub Vext2 v k S :=
  ⟨h.1, h.2.1, h.2.2.1, fun u hu hu' hu'' => hE (h.2.2.2.1 u hu hu' hu''), h.2.2.2.2⟩

/-- Correctness of the ESU recursion on a symmetric (undirected) graph:
under the call invariant, `extend_subgraph` records exactly the sets
described by `esuSpec`, each exactly once, for every choice function. -/
theorem extend_subgraph_spec (G : IGraph) (hsym : G.symm) (hwf : G.wellFormed)
    (pick : Pick) :
    ∀ (fuel : ℕ) (Vsub Vext : Finset ℕ) (v k : ℕ),
      k - Vsub.card ≤ fuel → Vsub.Nonempty → connIn G Vsub →
      Vext ⊆ nbrsSet G Vsub → (∀ u ∈ Vext, u ∉ Vsub) → (∀ u ∈ Vext, v < u) →
      (extend_subgraph G pick fuel Vsub Vext v k).Nodup ∧
        ∀ S, (S ∈ extend_subgraph G pick fuel Vsub Vext v k ↔ esuSpec G Vsub Vext v k S)
  | fuel, Vsub, Vext, v, k => by
    intro hfuel hne hconn hVext hdisj hgt
    by_cases hk : Vsub.card = k
    · rw [extend_subgraph_done G pick fuel Vsub Vext v k hk]
      refine ⟨List.nodup_singleton _, fun S => ?_⟩
      simp only [List.mem_singleton]
      constructor
      · rintro rfl
        exact ⟨Finset.Subset.refl _, hk, fun u hu hu' => absurd hu hu',
          fun u hu hu' _ => absurd hu hu', hconn⟩
      · rintro ⟨hsubS, hcard, -, -, -⟩
        exact (Finset.eq_of_subset_of_card_le hsubS
          (le_of_eq (hcard.trans hk.symm))).symm
    · by_cases h : Vext.Nonempty
      · rw [extend_subgraph_step G pick fuel Vsub Vext v k hk h]
        set w := (pick Vext h).1 with hwdef
        have hwmem : w ∈ Vext := (pick Vext h).2
        have hwgt : v < w := hgt w hwmem
        have hwnotin : w ∉ Vsub := hdisj w hwmem
        have hwnb : w ∈ nbrsSet G Vsub := hVext hwmem
        obtain ⟨p, hpVsub, hwp⟩ := (mem_nbrsSet G).mp hwnb
        have hconn' : connIn G (insert w Vsub) :=
          connIn_insert G hconn hpVsub (Or.inl ((mem_neighbors_out G).mp hwp).2)
        have hNexcl : ∀ u, u ∈ exclusive_neighborhood G w Vsub ↔
            (u = w ∨ u ∈ neighbors_out G w) ∧ u ∉ Vsub ∧ u ∉ nbrsSet G Vsub := by
          intro u
          have h1 : exclusive_neighborhood G w Vsub =
              neighborhood_out G w \ (Vsub ∪ nbrsSet G Vsub) := by
            unfold exclusive_neighborhood
            rw [biUnion_neighborhood_out]
          rw [h1, Finset.mem_sdiff, Finset.mem_union]
          simp only [neighborhood_out, Finset.mem_insert]
          tauto
        have hwNexcl : w ∉ exclusive_neighborhood G w Vsub := fun hc =>
          ((hNexcl w).mp hc).2.2 hwnb
        -- the two specifications produced by the two recursive calls
        have E1 : ∀ S, esuSpec G (insert w Vsub)
            (Vext.erase w ∪ (exclusive_neighborhood G w Vsub).filter (fun u => v < u))
            v k S → esuSpec G Vsub Vext v k S ∧ w ∈ S := by
          rintro S ⟨hsubS, hcard, hgtS, hbnd, hconnS⟩
          have hwS : w ∈ S := hsubS (Finset.mem_insert_self w Vsub)
          refine ⟨⟨fun u hu => hsubS (Finset.mem_insert_of_mem hu), hcard,
            ?_, ?_, hconnS⟩, hwS⟩
          · intro u hu hu'
            by_cases hu'' : u = w
            · exact hu'' ▸ hwgt
            · exact hgtS u hu (fun hc =>
                (Finset.mem_insert.mp hc).elim hu'' hu')
          · intro u hu hu' hunb
            by_cases hu'' : u = w
            · exact hu'' ▸ hwmem
            · have : u ∉ insert w Vsub := fun hc =>
                (Finset.mem_insert.mp hc).elim hu'' hu'
              have hmem := hbnd u hu this
                (nbrsSet_mono G (Finset.subset_insert w Vsub) hunb)
              rcases Finset.mem_union.mp hmem with hml | hmr
              · exact Finset.mem_of_mem_erase hml
              · exact absurd hunb ((hNexcl u).mp (Finset.mem_filter.mp hmr).1).2.2
        have E2 : ∀ S, esuSpec G Vsub (Vext.erase w) v k S →
            esuSpec G Vsub Vext v k S ∧ w ∉ S := by
          intro S hS
          refine ⟨esuSpec_mono_ext G (Finset.erase_subset w Vext) hS, fun hwS => ?_⟩
          exact Finset.not_mem_erase w Vext (hS.2.2.2.1 w hwS hwnotin hwnb)
        have E3 : ∀ S, esuSpec G Vsub Vext v k S →
            (w ∈ S → esuSpec G (insert w Vsub)
              (Vext.erase w ∪ (exclusive_neighborhood G w Vsub).filter (fun u => v < u))
              v k S) ∧
            (w ∉ S → esuSpec G Vsub (Vext.erase w) v k S) := by
          rintro S ⟨hsubS, hcard, hgtS, hbnd, hconnS⟩
          constructor
          · intro hwS
            refine ⟨Finset.insert_subset hwS hsubS, hcard, ?_, ?_, hconnS⟩
            · intro u hu hu'
              exact hgtS u hu (fun hc => hu' (Finset.mem_insert_of_mem hc))
            · intro u hu hu' hunb
              have huw : u ≠ w := fun hc => hu' (hc ▸ Finset.mem_insert_self w Vsub)
              have huV : u ∉ Vsub := fun hc => hu' (Finset.mem_insert_of_mem hc)
              rw [nbrsSet_insert] at hunb
              by_cases hunbV : u ∈ nbrsSet G Vsub
              · exact Finset.mem_union_left _
                  (Finset.mem_erase.mpr ⟨huw, hbnd u hu huV hunbV⟩)
              · have huw' : u ∈ neighbors_out G w := by
                  rcases Finset.mem_union.mp hunb with h' | h'
                  · exact h'
                  · exact absurd h' hunbV
                refine Finset.mem_union_right _ (Finset.mem_filter.mpr ⟨?_, hgtS u hu huV⟩)
                exact (hNexcl u).mpr ⟨Or.inr huw', huV, hunbV⟩
          · intro hwS
            refine ⟨hsubS, hcard, hgtS, ?_, hconnS⟩
            intro u hu hu' hunb
            exact Finset.mem_erase.mpr
              ⟨fun hc => hwS (hc ▸ hu), hbnd u hu hu' hunb⟩
        have IHrest := extend_subgraph_spec G hsym hwf pick fuel Vsub (Vext.erase w) v k
          hfuel hne hconn
          (fun u hu => hVext (Finset.mem_of_mem_erase hu))
          (fun u hu => hdisj u (Finset.mem_of_mem_erase hu))
          (fun u hu => hgt u (Finset.mem_of_mem_erase hu))
        by_cases hf0 : fuel = 0
        · rw [if_pos hf0]
          have hkle : k ≤ Vsub.card := by omega
          have hnospec : ∀ (E : Finset ℕ) (S : Finset ℕ), ¬ esuSpec G Vsub E v k S := by
            rintro E S ⟨hsubS, hcard, -, -, -⟩
            have := Finset.card_le_card hsubS
            omega
          refine ⟨by simpa using IHrest.1, fun S => ?_⟩
          simp only [List.nil_append]
          rw [IHrest.2 S]
          exact iff_of_false (hnospec _ S) (hnospec _ S)
        · rw [if_neg hf0]
          have hcard' : (insert w Vsub).card = Vsub.card + 1 :=
            Finset.card_insert_of_not_mem hwnotin
          have IHchild := extend_subgraph_spec G hsym hwf pick (fuel - 1) (insert w Vsub)
            (Vext.erase w ∪ (exclusive_neighborhood G w Vsub).filter (fun u => v < u)) v k
            (by omega) (Finset.insert_nonempty w Vsub) hconn'
            (by
              intro u hu
              rcases Finset.mem_union.mp hu with h' | h'
              · exact nbrsSet_mono G (Finset.subset_insert w Vsub)
                  (hVext (Finset.mem_of_mem_erase h'))
              · have h'' := (hNexcl u).mp (Finset.mem_filter.mp h').1
                have huw : u ≠ w := fun hc => hwNexcl (hc ▸ (Finset.mem_filter.mp h').1)
                have hun : u ∈ neighbors_out G w := h''.1.resolve_left huw
                exact (mem_nbrsSet G).mpr ⟨w, Finset.mem_insert_self w Vsub, hun⟩)
            (by
              intro u hu hc
              rcases Finset.mem_union.mp hu with h' | h'
              · rcases Finset.mem_insert.mp hc with h'' | h''
                · exact (Finset.mem_erase.mp h').1 h''
                · exact hdisj u (Finset.mem_of_mem_erase h') h''
              · have h'' := (hNexcl u).mp (Finset.mem_filter.mp h').1
                rcases Finset.mem_insert.mp hc with h3 | h3
                · exact hwNexcl (h3 ▸ (Finset.mem_filter.mp h').1)
                · exact h''.2.1 h3)
            (by
              intro u hu
              rcases Finset.mem_union.mp hu with h' | h'
              · exact hgt u (Finset.mem_of_mem_erase h')
              · exact (Finset.mem_filter.mp h').2)
          constructor
          · rw [List.nodup_append]
            refine ⟨IHchild.1, IHrest.1, fun S hS1 hS2 => ?_⟩
            exact (E2 S ((IHrest.2 S).mp hS2)).2 ((E1 S ((IHchild.2 S).mp hS1)).2)
          · intro S
            rw [List.mem_append, IHchild.2 S, IHrest.2 S]
            constructor
            · rintro (h1 | h2)
              · exact (E1 S h1).1
              · exact (E2 S h2).1
            · intro hp
              by_cases hwS : w ∈ S
              · exact Or.inl ((E3 S hp).1 hwS)
              · exact Or.inr ((E3 S hp).2 hwS)
      · rw [Finset.not_nonempty_iff_eq_empty] at h
        subst h
        rw [extend_subgraph_empty G pick fuel Vsub v k hk]
        refine ⟨List.nodup_nil, fun S => ?_⟩
        simp only [List.not_mem_nil, false_iff]
        rintro ⟨hsubS, hcard, hgtS, hbnd, hconnS⟩
        have hSne : ∃ d ∈ S, d ∉ Vsub := by
          by_contra hcon
          push_neg at hcon
          have hSV : S = Vsub := Finset.Subset.antisymm hcon hsubS
          exact hk (hSV ▸ hcard)
        obtain ⟨d, hdS, hdVsub⟩ := hSne
        obtain ⟨a, haA⟩ := hne
        obtain ⟨y, hyS, hyA, hynb⟩ :=
          connIn_boundary G hsym hwf hconnS hsubS haA hdS hdVsub
        exact absurd (hbnd y hyS hyA hynb) (Finset.not_mem_empty y)
termination_by fuel _ Vext _ _ => (fuel, Vext.card)
decreasing_by
  · exact Prod.Lex.right _ (Finset.card_erase_lt_of_mem hwmem)
  · exact Prod.Lex.left _ _ (by omega)

theorem mem_neighborhood_out (G : IGraph) {u v : ℕ} :
    u ∈ neighborhood_out G v ↔ u = v ∨ u ∈ neighbors_out G v :=
  Finset.mem_insert

theorem exclusive_neighborhood_subset (G : IGraph) (w : ℕ) (Vp : Finset ℕ) :
    exclusive_neighborhood G w Vp ⊆ insert w (neighbors_out G w) := fun _ hu =>
  (Finset.mem_sdiff.mp hu).1

/-- Unconditional soundness of the ESU recursion: every recorded set
contains `Vsub`, has exactly `k` nodes, stays inside
`Vsub ∪ Vext ∪ {0..n-1}`, and (when `Vext` lies above the root) all its
new nodes lie above the root. -/
theorem extend_subgraph_sound (G : IGraph) (pick : Pick) :
    ∀ (fuel : ℕ) (Vsub Vext : Finset ℕ) (v k : ℕ) (S : Finset ℕ),
      S ∈ extend_subgraph G pick fuel Vsub Vext v k →
      Vsub ⊆ S ∧ S.card = k ∧ S ⊆ Vsub ∪ Vext ∪ Finset.range G.n ∧
        ((∀ u ∈ Vext, v < u) → ∀ u ∈ S, u ∉ Vsub → v < u)
  | fuel, Vsub, Vext, v, k => fun S hS => by
    by_cases hk : Vsub.card = k
    · rw [extend_subgraph_done G pick fuel Vsub Vext v k hk] at hS
      rw [List.mem_singleton] at hS
      subst hS
      refine ⟨Finset.Subset.refl _, hk, ?_, ?_⟩
      · intro u hu
        exact Finset.mem_union_left _ (Finset.mem_union_left _ hu)
      · intro _ u hu hu'
        exact absurd hu hu'
    · by_cases h : Vext.Nonempty
      · rw [extend_subgraph_step G pick fuel Vsub Vext v k hk h] at hS
        set w := (pick Vext h).1 with hwdef
        have hwmem : w ∈ Vext := (pick Vext h).2
        rcases List.mem_append.mp hS with hS1 | hS1
        · have hf0 : ¬ fuel = 0 := by
            intro hc
            rw [hc] at hS1
            simp at hS1
          rw [if_neg hf0] at hS1
          obtain ⟨hsub, hcard, hrange, hgt⟩ :=
            extend_subgraph_sound G pick (fuel - 1) (insert w Vsub) _ v k S hS1
          refine ⟨fun u hu => hsub (Finset.mem_insert_of_mem hu), hcard, ?_, ?_⟩
          · intro u hu
            rcases Finset.mem_union.mp (hrange hu) with h1 | h1
            · rcases Finset.mem_union.mp h1 with h2 | h2
              · rcases Finset.mem_insert.mp h2 with h3 | h3
                · exact h3 ▸ Finset.mem_union_left _ (Finset.mem_union_right _ hwmem)
                · exact Finset.mem_union_left _ (Finset.mem_union_left _ h3)
              · rcases Finset.mem_union.mp h2 with h3 | h3
                · exact Finset.mem_union_left _
                    (Finset.mem_union_right _ (Finset.mem_of_mem_erase h3))
                · have h4 := exclusive_neighborhood_subset G w Vsub
                    (Finset.mem_filter.mp h3).1
                  rcases Finset.mem_insert.mp h4 with h5 | h5
                  · exact h5 ▸ Finset.mem_union_left _ (Finset.mem_union_right _ hwmem)
                  · exact Finset.mem_union_right _
                      (Finset.mem_of_mem_filter u h5)
            · exact Finset.mem_union_right _ h1
          · intro hVgt u hu hu'
            by_cases huw : u = w
            · exact huw ▸ hVgt w hwmem
            · refine hgt ?_ u hu ?_
              · intro x hx
                rcases Finset.mem_union.mp hx with h1 | h1
                · exact hVgt x (Finset.mem_of_mem_erase h1)
                · exact (Finset.mem_filter.mp h1).2
              · intro hc
                rcases Finset.mem_insert.mp hc with h1 | h1
                · exact huw h1
                · exact hu' h1
        · obtain ⟨hsub, hcard, hrange, hgt⟩ :=
            extend_subgraph_sound G pick fuel Vsub (Vext.erase w) v k S hS1
          refine ⟨hsub, hcard, ?_, ?_⟩
          · intro u hu
            rcases Finset.mem_union.mp (hrange hu) with h1 | h1
            · rcases Finset.mem_union.mp h1 with h2 | h2
              · exact Finset.mem_union_left _ (Finset.mem_union_left _ h2)
              · exact Finset.mem_union_left _
                  (Finset.mem_union_right _ (Finset.mem_of_mem_erase h2))
            · exact Finset.mem_union_right _ h1
          · intro hVgt
            exact hgt (fun x hx => hVgt x (Finset.mem_of_mem_erase hx))
      · rw [Finset.not_nonempty_iff_eq_empty] at h
        subst h
        rw [extend_subgraph_empty G pick fuel Vsub v k hk] at hS
        exact absurd hS (List.not_mem_nil S)
termination_by fuel _ Vext _ _ => (fuel, Vext.card)
decreasing_by
  · exact Prod.Lex.left _ _ (by omega)
  · exact Prod.Lex.right _ (Finset.card_erase_lt_of_mem hwmem)

/-- Claim C1, amended: on every undirected graph (symmetric adjacency,
as produced by an undirected `igraph.Graph`) and for every `k` with
`1 ≤ k ≤ n` and every outcome of the random draws, `enumerate_subgraphs`
returns a duplicate-free list consisting of exactly the `k`-node
connected induced subgraphs. -/
theorem enumerate_subgraphs_esu_correct (G : IGraph) (hsym : G.symm)
    (hwf : G.wellFormed) (pick : Pick) (k : ℕ) (hk1 : 1 ≤ k) (hkn : k ≤ G.n) :
    (enumerate_subgraphs G pick k).Nodup ∧
      (∀ S ∈ enumerate_subgraphs G pick k, S.card = k ∧ connIn G S) ∧
      (∀ S : Finset ℕ, (∀ x ∈ S, x < G.n) → S.card = k → connIn G S →
        S ∈ enumerate_subgraphs G pick k) := by
  have hconn1 : ∀ v : ℕ, connIn G {v} := by
    intro v a ha b hb
    rw [Finset.mem_singleton] at ha hb
    subst ha
    subst hb
    exact Relation.ReflTransGen.refl
  have hnb1 : ∀ v : ℕ, nbrsSet G {v} = neighbors_out G v := fun v =>
    Finset.singleton_biUnion
  have hroot := fun (v : ℕ) =>
    extend_subgraph_spec G hsym hwf pick G.n {v}
      ((neighbors_out G v).filter (fun u => v < u)) v k
      (by rw [Finset.card_singleton]; omega)
      (Finset.singleton_nonempty v) (hconn1 v)
      (by rw [hnb1 v]; exact Finset.filter_subset _ _)
      (fun u hu hc => by
        rw [Finset.mem_singleton] at hc
        have := (Finset.mem_filter.mp hu).2
        omega)
      (fun u hu => (Finset.mem_filter.mp hu).2)
  have hmem : ∀ S : Finset ℕ, S ∈ enumerate_subgraphs G pick k ↔
      ∃ v, v < G.n ∧
        esuSpec G {v} ((neighbors_out G v).filter (fun u => v < u)) v k S := by
    intro S
    unfold enumerate_subgraphs
    rw [List.mem_flatMap]
    constructor
    · rintro ⟨v, hv, hS⟩
      exact ⟨v, List.mem_range.mp hv, ((hroot v).2 S).mp hS⟩
    · rintro ⟨v, hv, hS⟩
      exact ⟨v, List.mem_range.mpr hv, ((hroot v).2 S).mpr hS⟩
  refine ⟨?_, ?_, ?_⟩
  · unfold enumerate_subgraphs
    rw [List.nodup_flatMap]
    refine ⟨fun v _ => (hroot v).1, ?_⟩
    refine (List.pairwise_lt_range G.n).imp ?_
    intro a b hab S hSa hSb
    obtain ⟨hsa, -, -, -⟩ := extend_subgraph_sound G pick G.n {a} _ a k S hSa
    obtain ⟨-, -, -, hgtb⟩ := extend_subgraph_sound G pick G.n {b} _ b k S hSb
    have haS : a ∈ S := hsa (Finset.mem_singleton_self a)
    have h2 : b < a := by
      apply hgtb (fun u hu => (Finset.mem_filter.mp hu).2) a haS
      rw [Finset.mem_singleton]
      omega
    omega
  · intro S hS
    obtain ⟨v, hv, hspec⟩ := (hmem S).mp hS
    exact ⟨hspec.2.1, hspec.2.2.2.2⟩
  · intro S hSn hcard hconnS
    have hSne : S.Nonempty := Finset.card_pos.mp (by omega)
    have hvS : S.min' hSne ∈ S := S.min'_mem hSne
    refine (hmem S).mpr ⟨S.min' hSne, hSn _ hvS, ?_⟩
    refine ⟨Finset.singleton_subset_iff.mpr hvS, hcard, ?_, ?_, hconnS⟩
    · intro u hu hu'
      rw [Finset.mem_singleton] at hu'
      exact lt_of_le_of_ne (S.min'_le u hu) (Ne.symm hu')
    · intro u hu hu' hunb
      rw [hnb1 _] at hunb
      refine Finset.mem_filter.mpr ⟨hunb, ?_⟩
      rw [Finset.mem_singleton] at hu'
      exact lt_of_le_of_ne (S.min'_le u hu) (Ne.symm hu')

/-- A directed igraph graph with vertices `{0, 1}` and the single
directed edge `1 → 0`. -/
def Gdir : IGraph :=
  ⟨2, fun a b => a == 1 && b == 0⟩

/-- An undirected two-vertex path `0 — 1` (symmetric adjacency). -/
def Gpath2 : IGraph :=
  ⟨2, fun a b => min a b == 0 && max a b == 1⟩

theorem Gpath2_symm : Gpath2.symm := by
  intro a b
  simp [Gpath2, Nat.min_comm, Nat.max_comm]

theorem Gpath2_wellFormed : Gpath2.wellFormed := by
  intro a b h
  simp only [Gpath2, Bool.and_eq_true, beq_iff_eq] at h
  have h1 := Nat.le_max_left a b
  have h2 := Nat.le_max_right a b
  refine ⟨?_, ?_⟩
  · show a < 2
    omega
  · show b < 2
    omega

/-- Counterexample to claim C1 as stated: on the directed graph `1 → 0`
the node set `{0, 1}` induces a connected subgraph ignoring edge
direction and has exactly `k = 2` nodes, yet `enumerate_subgraphs`
omits it (the implementation follows `mode="out"` neighbourhoods, so it
never reaches `0` from the root `1`, and the canonical filter discards
`0 < 1` at root `0`). -/
theorem enumerate_subgraphs_misses_directed :
    ({0, 1} : Finset ℕ).card = 2 ∧ connIn Gdir {0, 1} ∧
      (∀ x ∈ ({0, 1} : Finset ℕ), x < Gdir.n) ∧
      {0, 1} ∉ enumerate_subgraphs Gdir minPick 2 := by
  have henum : enumerate_subgraphs Gdir minPick 2 = [] := by
    have h0 : extend_subgraph Gdir minPick Gdir.n {0}
        ((neighbors_out Gdir 0).filter (fun u => 0 < u)) 0 2 = [] := by
      have he : (neighbors_out Gdir 0).filter (fun u => 0 < u) = ∅ := by decide
      rw [he]
      exact extend_subgraph_empty _ _ _ _ _ _ (by decide)
    have h1 : extend_subgraph Gdir minPick Gdir.n {1}
        ((neighbors_out Gdir 1).filter (fun u => 1 < u)) 1 2 = [] := by
      have he : (neighbors_out Gdir 1).filter (fun u => 1 < u) = ∅ := by decide
      rw [he]
      exact extend_subgraph_empty _ _ _ _ _ _ (by decide)
    unfold enumerate_subgraphs
    have hr : List.range Gdir.n = [0, 1] := by decide
    rw [hr]
    simp only [List.flatMap_cons, List.flatMap_nil, h0, h1, List.append_nil]
  refine ⟨by decide, ?_, by decide, ?_⟩
  · intro a ha b hb
    fin_cases ha <;> fin_cases hb
    · exact Relation.ReflTransGen.refl
    · exact Relation.ReflTransGen.single ⟨by decide, by decide, Or.inr (by decide)⟩
    · exact Relation.ReflTransGen.single ⟨by decide, by decide, Or.inl (by decide)⟩
    · exact Relation.ReflTransGen.refl
  · rw [henum]
    exact List.not_mem_nil _

/-- Witness instantiating `enumerate_subgraphs_esu_correct` on the
undirected path `0 — 1` with `k = 2`. -/
theorem enumerate_subgraphs_esu_correct_witness :
    (Gpath2.symm ∧ Gpath2.wellFormed ∧ 1 ≤ 2 ∧ 2 ≤ Gpath2.n) ∧
      (enumerate_subgraphs Gpath2 minPick 2).Nodup :=
  ⟨⟨Gpath2_symm, Gpath2_wellFormed, by decide, by decide⟩,
    (enumerate_subgraphs_esu_correct Gpath2 Gpath2_symm Gpath2_wellFormed
      minPick 2 (by decide) (by decide)).1⟩

/-! ## Claim C5: no validation of `k` in `enumerate_subgraphs` -/

/-- `enumerate_subgraphs` contains no validation of `k` whatsoever: for
`k = 0` (the model of Python's `k ≤ 0`) or `k` above the node count it
simply runs to completion and returns the empty list; no error is
raised. -/
theorem enumerate_subgraphs_invalid_k (G : IGraph) (pick : Pick) (k : ℕ)
    (hk : k = 0 ∨ G.n < k) :
    enumerate_subgraphs G pick k = [] := by
  rw [List.eq_nil_iff_forall_not_mem]
  intro S hS
  unfold enumerate_subgraphs at hS
  rw [List.mem_flatMap] at hS
  obtain ⟨v, hv, hS⟩ := hS
  obtain ⟨hsub, hcard, hrange, -⟩ := extend_subgraph_sound G pick G.n {v} _ v k S hS
  have hvS : v ∈ S := hsub (Finset.mem_singleton_self v)
  rcases hk with rfl | hk
  · have := Finset.card_pos.mpr ⟨v, hvS⟩
    omega
  · have hsr : S ⊆ Finset.range G.n := by
      intro u hu
      rcases Finset.mem_union.mp (hrange hu) with h1 | h1
      · rcases Finset.mem_union.mp h1 with h2 | h2
        · rw [Finset.mem_singleton] at h2
          subst h2
          exact Finset.mem_range.mpr (List.mem_range.mp hv)
        · have h3 := (Finset.filter_subset _ _) h2
          exact Finset.mem_range.mpr ((mem_neighbors_out G).mp h3).1
      · exact h1
    have := Finset.card_le_card hsr
    rw [Finset.card_range] at this
    omega

/-- A one-node graph with no edges. -/
def G1 : IGraph :=
  ⟨1, fun _ _ => false⟩

/-- Evaluation of `enumerate_subgraphs` at invalid values of `k` on the
one-node graph: both `k = 0` and `k = 2 > 1` return the empty list
normally — the `InvalidArgument` failure demanded by the specification
does not occur. -/
theorem enumerate_subgraphs_invalid_k_returns_nil :
    enumerate_subgraphs G1 minPick 0 = [] ∧ enumerate_subgraphs G1 minPick 2 = [] :=
  ⟨enumerate_subgraphs_invalid_k G1 minPick 0 (Or.inl rfl),
    enumerate_subgraphs_invalid_k G1 minPick 2 (Or.inr (by decide))⟩

/-! ## The networkx model: `all_neighbors` and `connected_random_subgraph`

A `networkx.DiGraph` is a list of (unique) nodes together with directed
weighted edges; querying `successors`/`predecessors` returns each
neighbour once. -/

structure DiGraph where
  nodes : List ℕ
  edges : List (ℕ × ℕ × ℚ)

/-- `G.successors(v)`, deduplicated (networkx stores adjacency as a
dict, so each successor appears once). -/
def successors (G : DiGraph) (v : ℕ) : Finset ℕ :=
  ((G.edges.filter (fun e => e.1 == v)).map (fun e => e.2.1)).toFinset

/-- `G.predecessors(v)`, deduplicated. -/
def predecessors (G : DiGraph) (v : ℕ) : Finset ℕ :=
  ((G.edges.filter (fun e => e.2.1 == v)).map (fun e => e.1)).toFinset

/-- `all_neighbors(G, n) = set(list(G.successors(n)) + list(G.predecessors(n)))`
from `graph_library.py`. -/
def all_neighbors (G : DiGraph) (v : ℕ) : Finset ℕ :=
  successors G v ∪ predecessors G v

theorem mem_successors (G : DiGraph) {u v : ℕ} :
    u ∈ successors G v ↔ ∃ w : ℚ, (v, u, w) ∈ G.edges := by
  simp only [successors, List.mem_toFinset, List.mem_map, List.mem_filter,
    beq_iff_eq]
  constructor
  · rintro ⟨⟨a, b, c⟩, ⟨he, h1⟩, h2⟩
    subst h1
    subst h2
    exact ⟨c, he⟩
  · rintro ⟨w, hw⟩
    exact ⟨(v, u, w), ⟨hw, rfl⟩, rfl⟩

theorem mem_predecessors (G : DiGraph) {u v : ℕ} :
    u ∈ predecessors G v ↔ ∃ w : ℚ, (u, v, w) ∈ G.edges := by
  simp only [predecessors, List.mem_toFinset, List.mem_map, List.mem_filter,
    beq_iff_eq]
  constructor
  · rintro ⟨⟨a, b, c⟩, ⟨he, h1⟩, h2⟩
    subst h1
    subst h2
    exact ⟨c, he⟩
  · rintro ⟨w, hw⟩
    exact ⟨(u, v, w), ⟨hw, rfl⟩, rfl⟩

theorem mem_all_neighbors (G : DiGraph) {u v : ℕ} :
    u ∈ all_neighbors G v ↔ ∃ w : ℚ, (v, u, w) ∈ G.edges ∨ (u, v, w) ∈ G.edges := by
  simp only [all_neighbors, Finset.mem_union, mem_successors, mem_predecessors]
  constructor
  · rintro (⟨w, hw⟩ | ⟨w, hw⟩)
    · exact ⟨w, Or.inl hw⟩
    · exact ⟨w, Or.inr hw⟩
  · rintro ⟨w, hw | hw⟩
    · exact Or.inl ⟨w, hw⟩
    · exact Or.inr ⟨w, hw⟩

/-- Undirected adjacency of the networkx model is symmetric. -/
theorem all_neighbors_comm (G : DiGraph) {u v : ℕ} :
    u ∈ all_neighbors G v ↔ v ∈ all_neighbors G u := by
  rw [mem_all_neighbors, mem_all_neighbors]
  constructor
  · rintro ⟨w, hw⟩
    exact ⟨w, hw.symm⟩
  · rintro ⟨w, hw⟩
    exact ⟨w, hw.symm⟩

/-! Weak connectivity of the networkx model. -/

/-- One undirected step. -/
def edgeU (G : DiGraph) (a b : ℕ) : Prop :=
  b ∈ all_neighbors G a

/-- Undirected (weak) reachability. -/
def ReachU (G : DiGraph) : ℕ → ℕ → Prop :=
  Relation.ReflTransGen (edgeU G)

/-- One round of neighbourhood expansion. -/
def nbhdStep (G : DiGraph) (S : Finset ℕ) : Finset ℕ :=
  S ∪ S.biUnion (all_neighbors G)

/-- The weakly-connected component of `v`, computed by saturating
neighbourhood expansion (`|nodes|` rounds always reach the fixpoint). -/
def reachSet (G : DiGraph) (v : ℕ) : Finset ℕ :=
  (nbhdStep G)^[G.nodes.length] {v}

/-- Model of `networkx.weakly_connected_components(G)`: each
weakly-connected component listed once, in node order. -/
def weakly_connected_components (G : DiGraph) : List (Finset ℕ) :=
  (G.nodes.map (fun v => reachSet G v)).dedup

/-- Data-model invariant of networkx graphs (spec §3): every edge's
endpoints exist in the node set. -/
def DiGraph.closed (G : DiGraph) : Prop :=
  ∀ e ∈ G.edges, e.1 ∈ G.nodes ∧ e.2.1 ∈ G.nodes

/-- A model of `random.choice` on a non-empty list of components. -/
def PickComp : Type :=
  (l : List (Finset ℕ)) → l ≠ [] → {s // s ∈ l}

/-- Concrete component choice: the first list element. -/
def headPick : PickComp := fun l h => ⟨l.head h, List.head_mem h⟩

/-- The `while` loop of `connected_random_subgraph`.  The guard
`len(selected) < n and len(candidates) > 0` is represented by the
remaining-slot counter `r = n - len(selected)` (the loop appends exactly
one node per iteration, so the counter mirrors the guard); the
`len(candidates) == 1` branch of the source pops the unique element,
which is what any choice function returns on a singleton, so both
branches are one choice-then-erase step. -/
def sampleLoop (G : DiGraph) (pick : Pick) : ℕ → List ℕ → Finset ℕ → List ℕ
  | 0, selected, _ => selected
  | r + 1, selected, candidates =>
    if h : candidates.Nonempty then
      let selected_candidate := (pick candidates h).1
      let candidates' := candidates.erase selected_candidate
      let selected' := selected ++ [selected_candidate]
      sampleLoop G pick r selected'
        (candidates' ∪ (all_neighbors G selected_candidate \ selected'.toFinset))
    else selected

/-- The error message of `connected_random_subgraph` (Python
`ValueError(f"There are no connected components with more than {n=} nodes.")`). -/
def insufficientMsg (n : ℕ) : String :=
  s!"There are no connected components with more than n={n} nodes."

/-- `connected_random_subgraph(G, n)` from `graph_library.py`, returning
the `selected_nodes` sequence over which the induced subgraph
`nx.subgraph(G, selected_nodes)` is built.  The three `random.choice`
calls are modelled by the three choice functions. -/
def connected_random_subgraph (G : DiGraph) (pickComp : PickComp)
    (pickStart pickCand : Pick) (n : ℕ) : Except String (List ℕ) :=
  let components := (weakly_connected_components G).filter (fun s => decide (n < s.card))
  if hc : components = [] then
    Except.error (insufficientMsg n)
  else
    let random_component := (pickComp components hc).1
    have hne : random_component.Nonempty := by
      have hmem' : random_component ∈ (weakly_connected_components G).filter
          (fun s => decide (n < s.card)) := (pickComp components hc).2
      rw [List.mem_filter] at hmem'
      exact Finset.card_pos.mp
        (Nat.lt_of_le_of_lt (Nat.zero_le n) (of_decide_eq_true hmem'.2))
    let start_node := (pickStart random_component hne).1
    Except.ok (sampleLoop G pickCand (n - 1) [start_node] (all_neighbors G start_node))

/-! ## Properties of the sampler loop -/

/-- A step of an undirected walk of the networkx model inside `S`. -/
def stepInNX (G : DiGraph) (S : Finset ℕ) (x y : ℕ) : Prop :=
  x ∈ S ∧ y ∈ S ∧ y ∈ all_neighbors G x

/-- The subgraph induced by `S` is connected under undirected
adjacency. -/
def connInNX (G : DiGraph) (S : Finset ℕ) : Prop :=
  ∀ a ∈ S, ∀ b ∈ S, Relation.ReflTransGen (stepInNX G S) a b

/-- Claim C9: the selection loop always terminates, extending the
selected sequence in place by at most the number of remaining slots
(one appended node per iteration until the guard fails). -/
theorem sampleLoop_terminates (G : DiGraph) (pick : Pick) :
    ∀ (r : ℕ) (selected : List ℕ) (candidates : Finset ℕ),
      ∃ t : List ℕ, sampleLoop G pick r selected candidates = selected ++ t ∧
        t.length ≤ r := by
  intro r
  induction r with
  | zero =>
    intro sel cand
    exact ⟨[], by simp [sampleLoop], by simp⟩
  | succ r ih =>
    intro sel cand
    by_cases h : cand.Nonempty
    · obtain ⟨t, ht, hlen⟩ := ih (sel ++ [(pick cand h).1])
        ((cand.erase (pick cand h).1) ∪
          (all_neighbors G (pick cand h).1 \ (sel ++ [(pick cand h).1]).toFinset))
      refine ⟨(pick cand h).1 :: t, ?_, by simp; omega⟩
      rw [sampleLoop, dif_pos h, ht]
      simp
    · exact ⟨[], by rw [sampleLoop, dif_neg h]; simp, by simp⟩

theorem reachNX_mono (G : DiGraph) {S T : Finset ℕ} (hST : S ⊆ T) {a b : ℕ}
    (h : Relation.ReflTransGen (stepInNX G S) a b) :
    Relation.ReflTransGen (stepInNX G T) a b :=
  Relation.ReflTransGen.mono (fun _ _ hxy => ⟨hST hxy.1, hST hxy.2.1, hxy.2.2⟩) h

theorem connInNX_insert (G : DiGraph) {S : Finset ℕ} {p w : ℕ}
    (hconn : connInNX G S) (hp : p ∈ S) (hadj : w ∈ all_neighbors G p) :
    connInNX G (insert w S) := by
  have hsub : S ⊆ insert w S := Finset.subset_insert w S
  have hto : ∀ b ∈ S, Relation.ReflTransGen (stepInNX G (insert w S)) w b := by
    intro b hb
    exact Relation.ReflTransGen.head
      ⟨Finset.mem_insert_self w S, hsub hp, (all_neighbors_comm G).mp hadj⟩
      (reachNX_mono G hsub (hconn p hp b hb))
  intro a ha b hb
  rcases Finset.mem_insert.mp ha with ha' | ha'
  · subst ha'
    rcases Finset.mem_insert.mp hb with hb' | hb'
    · subst hb'
      exact Relation.ReflTransGen.refl
    · exact hto b hb'
  · rcases Finset.mem_insert.mp hb with hb' | hb'
    · subst hb'
      exact Relation.ReflTransGen.tail
        (reachNX_mono G hsub (hconn a ha' p hp))
        ⟨hsub hp, Finset.mem_insert_self b S, hadj⟩
    · exact reachNX_mono G hsub (hconn a ha' b hb')

/-- Loop invariant: if the candidates are all undirected neighbours of
already-selected nodes, the selected set stays internally connected. -/
theorem sampleLoop_connected (G : DiGraph) (pick : Pick) :
    ∀ (r : ℕ) (selected : List ℕ) (candidates : Finset ℕ),
      connInNX G selected.toFinset →
      (∀ c ∈ candidates, ∃ p ∈ selected.toFinset, c ∈ all_neighbors G p) →
      connInNX G (sampleLoop G pick r selected candidates).toFinset := by
  intro r
  induction r with
  | zero =>
    intro sel cand hconn _
    simpa [sampleLoop] using hconn
  | succ r ih =>
    intro sel cand hconn hcand
    by_cases h : cand.Nonempty
    · rw [sampleLoop, dif_pos h]
      have hcmem := (pick cand h).2
      have happ : (sel ++ [(pick cand h).1]).toFinset =
          insert (pick cand h).1 sel.toFinset := by
        ext x
        simp [List.toFinset_append, or_comm]
      apply ih
      · rw [happ]
        obtain ⟨p, hp, hcp⟩ := hcand _ hcmem
        exact connInNX_insert G hconn hp hcp
      · intro x hx
        rcases Finset.mem_union.mp hx with h1 | h1
        · obtain ⟨p, hp, hxp⟩ := hcand x (Finset.mem_of_mem_erase h1)
          refine ⟨p, ?_, hxp⟩
          rw [happ]
          exact Finset.mem_insert_of_mem hp
        · refine ⟨(pick cand h).1, ?_, (Finset.mem_sdiff.mp h1).1⟩
          rw [happ]
          exact Finset.mem_insert_self _ _
    · rw [sampleLoop, dif_neg h]
      exact hconn

/-- Loop invariant for C10: as long as the candidate set stays disjoint
from the selected sequence, the selected sequence stays duplicate-free. -/
theorem sampleLoop_nodup (G : DiGraph) (pick : Pick) :
    ∀ (r : ℕ) (selected : List ℕ) (candidates : Finset ℕ),
      selected.Nodup → (∀ c ∈ candidates, c ∉ selected) →
      (sampleLoop G pick r selected candidates).Nodup := by
  intro r
  induction r with
  | zero =>
    intro sel cand hnd _
    simpa [sampleLoop] using hnd
  | succ r ih =>
    intro sel cand hnd hdisj
    by_cases h : cand.Nonempty
    · rw [sampleLoop, dif_pos h]
      have hcmem := (pick cand h).2
      apply ih
      · rw [List.nodup_append]
        refine ⟨hnd, List.nodup_singleton _, fun a ha ha' => ?_⟩
        rw [List.mem_singleton] at ha'
        exact hdisj _ hcmem (ha' ▸ ha)
      · intro x hx hx'
        rcases Finset.mem_union.mp hx with h1 | h1
        · rcases List.mem_append.mp hx' with h2 | h2
          · exact hdisj x (Finset.mem_of_mem_erase h1) h2
          · rw [List.mem_singleton] at h2
            exact (Finset.mem_erase.mp h1).1 h2
        · exact (Finset.mem_sdiff.mp h1).2 (List.mem_toFinset.mpr hx')
    · rw [sampleLoop, dif_neg h]
      exact hnd

/-! ## Correctness of the weak-component computation -/

theorem subset_nbhdStep (G : DiGraph) (S : Finset ℕ) : S ⊆ nbhdStep G S :=
  Finset.subset_union_left

theorem reachIter_mono (G : DiGraph) (v : ℕ) (m : ℕ) :
    (nbhdStep G)^[m] {v} ⊆ (nbhdStep G)^[m + 1] {v} := by
  rw [Function.iterate_succ_apply']
  exact subset_nbhdStep G _

theorem reachIter_zero_subset (G : DiGraph) (v : ℕ) (m : ℕ) :
    ({v} : Finset ℕ) ⊆ (nbhdStep G)^[m] {v} := by
  induction m with
  | zero => exact Finset.Subset.refl _
  | succ m ih => exact ih.trans (reachIter_mono G v m)

theorem reachIter_card (G : DiGraph) (v : ℕ) :
    ∀ m, (∀ j, j < m → (nbhdStep G)^[j + 1] {v} ≠ (nbhdStep G)^[j] {v}) →
      m + 1 ≤ ((nbhdStep G)^[m] {v}).card := by
  intro m
  induction m with
  | zero =>
    intro _
    simp
  | succ m ih =>
    intro hne
    have h1 := ih (fun j hj => hne j (Nat.lt_succ_of_lt hj))
    have h2 : (nbhdStep G)^[m] {v} ⊂ (nbhdStep G)^[m + 1] {v} :=
      Finset.ssubset_iff_subset_ne.mpr
        ⟨reachIter_mono G v m, fun hc => hne m (Nat.lt_succ_self m) hc.symm⟩
    have := Finset.card_lt_card h2
    omega

theorem nbhdStep_fix_stays (G : DiGraph) (v : ℕ) (m : ℕ)
    (hfix : (nbhdStep G)^[m + 1] {v} = (nbhdStep G)^[m] {v}) :
    ∀ t, (nbhdStep G)^[m + t] {v} = (nbhdStep G)^[m] {v} := by
  intro t
  induction t with
  | zero => rfl
  | succ t ih =>
    have e : m + (t + 1) = (m + t) + 1 := rfl
    have hs := Function.iterate_succ_apply' (nbhdStep G) m ({v} : Finset ℕ)
    rw [e, Function.iterate_succ_apply', ih]
    exact hs.symm.trans hfix

theorem reachIter_subset_nodes (G : DiGraph) (hclosed : G.closed) (v : ℕ) :
    ∀ m, (nbhdStep G)^[m] {v} ⊆ insert v G.nodes.toFinset := by
  intro m
  induction m with
  | zero =>
    intro x hx
    rw [Function.iterate_zero_apply, Finset.mem_singleton] at hx
    subst hx
    exact Finset.mem_insert_self _ _
  | succ m ih =>
    rw [Function.iterate_succ_apply']
    intro x hx
    unfold nbhdStep at hx
    rcases Finset.mem_union.mp hx with h1 | h1
    · exact ih h1
    · obtain ⟨p, -, hxp⟩ := Finset.mem_biUnion.mp h1
      obtain ⟨w, hw | hw⟩ := (mem_all_neighbors G).mp hxp
      · exact Finset.mem_insert_of_mem (List.mem_toFinset.mpr (hclosed _ hw).2)
      · exact Finset.mem_insert_of_mem (List.mem_toFinset.mpr (hclosed _ hw).1)

/-- `|nodes|` rounds of expansion saturate: `reachSet` is a fixpoint of
`nbhdStep`. -/
theorem reachSet_fix (G : DiGraph) (hclosed : G.closed) (v : ℕ) :
    nbhdStep G (reachSet G v) = reachSet G v := by
  unfold reachSet
  have hs := Function.iterate_succ_apply' (nbhdStep G) G.nodes.length ({v} : Finset ℕ)
  rw [← hs]
  by_contra hne
  have hstrict : ∀ j, j < G.nodes.length + 1 →
      (nbhdStep G)^[j + 1] {v} ≠ (nbhdStep G)^[j] {v} := by
    intro j hj hfixj
    apply hne
    have h1 := nbhdStep_fix_stays G v j hfixj (G.nodes.length - j)
    have h2 := nbhdStep_fix_stays G v j hfixj (G.nodes.length - j + 1)
    have e1 : j + (G.nodes.length - j) = G.nodes.length := by omega
    have e2 : j + (G.nodes.length - j + 1) = G.nodes.length + 1 := by omega
    rw [e1] at h1
    rw [e2] at h2
    rw [h1, h2]
  have hcard := reachIter_card G v (G.nodes.length + 1) hstrict
  have hsub := reachIter_subset_nodes G hclosed v (G.nodes.length + 1)
  have hle := Finset.card_le_card hsub
  have hb : (insert v G.nodes.toFinset).card ≤ G.nodes.length + 1 := by
    have h3 := Finset.card_insert_le v G.nodes.toFinset
    have h4 := G.nodes.toFinset_card_le
    omega
  omega

/-- `reachSet G v` is exactly the set of nodes weakly reachable from
`v` (for a graph satisfying the §3 endpoint invariant). -/
theorem mem_reachSet (G : DiGraph) (hclosed : G.closed) (v u : ℕ) :
    u ∈ reachSet G v ↔ ReachU G v u := by
  constructor
  · have hsound : ∀ m u, u ∈ (nbhdStep G)^[m] {v} → ReachU G v u := by
      intro m
      induction m with
      | zero =>
        intro u hu
        rw [Function.iterate_zero_apply, Finset.mem_singleton] at hu
        exact hu ▸ Relation.ReflTransGen.refl
      | succ m ih =>
        intro u hu
        rw [Function.iterate_succ_apply'] at hu
        unfold nbhdStep at hu
        rcases Finset.mem_union.mp hu with h1 | h1
        · exact ih u h1
        · obtain ⟨p, hp, hup⟩ := Finset.mem_biUnion.mp h1
          exact Relation.ReflTransGen.tail (ih p hp) hup
    exact hsound _ u
  · intro h
    induction h with
    | refl => exact reachIter_zero_subset G v _ (Finset.mem_singleton_self v)
    | tail hreach hstep ih =>
      rw [← reachSet_fix G hclosed v]
      unfold nbhdStep
      exact Finset.mem_union_right _ (Finset.mem_biUnion.mpr ⟨_, ih, hstep⟩)

/-! ## The sampler's error and success behaviour -/

/-- Claim C6: `connected_random_subgraph(G, n)` fails (with the
`InsufficientComponentSize` error) exactly when no weakly-connected
component of `G` has size strictly greater than `n`; the failure does
not depend on any of the random draws, i.e. it happens before any node
is selected.  The first conjunct ties the executable `reachSet` to
mathematical weak reachability. -/
theorem connected_random_subgraph_error_iff (G : DiGraph) (hclosed : G.closed)
    (pickComp : PickComp) (pickStart pickCand : Pick) (n : ℕ) :
    (∀ v u : ℕ, u ∈ reachSet G v ↔ ReachU G v u) ∧
      (connected_random_subgraph G pickComp pickStart pickCand n =
          Except.error (insufficientMsg n) ↔
        ∀ v ∈ G.nodes, (reachSet G v).card ≤ n) := by
  refine ⟨fun v u => mem_reachSet G hclosed v u, ?_⟩
  simp only [connected_random_subgraph]
  split
  · next hc =>
    simp only [true_iff]
    intro v hv
    by_contra hlt
    push_neg at hlt
    have hmem : reachSet G v ∈ weakly_connected_components G := by
      unfold weakly_connected_components
      exact List.mem_dedup.mpr (List.mem_map.mpr ⟨v, hv, rfl⟩)
    have hmemf : reachSet G v ∈
        (weakly_connected_components G).filter (fun s => decide (n < s.card)) :=
      List.mem_filter.mpr ⟨hmem, decide_eq_true hlt⟩
    rw [hc] at hmemf
    exact absurd hmemf (List.not_mem_nil _)
  · next hc =>
    refine iff_of_false (by simp) ?_
    intro hall
    obtain ⟨C, hC⟩ := List.exists_mem_of_ne_nil _ hc
    have h1 := List.mem_filter.mp hC
    have h2 : n < C.card := of_decide_eq_true h1.2
    unfold weakly_connected_components at h1
    obtain ⟨v, hv, hveq⟩ := List.mem_map.mp (List.mem_dedup.mp h1.1)
    have := hall v hv
    rw [hveq] at this
    omega

/-- Whenever the sampler returns successfully, the result is the
selected-node sequence of the loop started at some node. -/
theorem connected_random_subgraph_ok_elim (G : DiGraph)
    (pickComp : PickComp) (pickStart pickCand : Pick) (n : ℕ) (l : List ℕ)
    (h : connected_random_subgraph G pickComp pickStart pickCand n = Except.ok l) :
    ∃ s0 : ℕ, l = sampleLoop G pickCand (n - 1) [s0] (all_neighbors G s0) := by
  simp only [connected_random_subgraph] at h
  split at h
  · exact absurd h (by simp)
  · exact ⟨_, (Except.ok.inj h).symm⟩

/-- Core of claim C7: for every start node and every outcome, the loop
result (with `r = n - 1` remaining slots for `n ≥ 1`) has at most `n`
distinct nodes, induces a connected subgraph under undirected
adjacency, and its nodes are pairwise weakly connected. -/
theorem sample_result_spec (G : DiGraph) (pick : Pick) (n : ℕ) (hn : 1 ≤ n)
    (s0 : ℕ) (l : List ℕ)
    (hl : l = sampleLoop G pick (n - 1) [s0] (all_neighbors G s0)) :
    l.toFinset.card ≤ n ∧ connInNX G l.toFinset ∧
      ∀ x ∈ l, ∀ y ∈ l, ReachU G x y := by
  have hconn0 : connInNX G ([s0] : List ℕ).toFinset := by
    intro a ha b hb
    simp only [List.toFinset_cons, List.toFinset_nil, insert_emptyc_eq,
      Finset.mem_singleton] at ha hb
    subst ha
    subst hb
    exact Relation.ReflTransGen.refl
  have hcand0 : ∀ c ∈ all_neighbors G s0,
      ∃ p ∈ ([s0] : List ℕ).toFinset, c ∈ all_neighbors G p := by
    intro c hc
    refine ⟨s0, ?_, hc⟩
    simp
  have hconn : connInNX G l.toFinset := by
    rw [hl]
    exact sampleLoop_connected G pick (n - 1) [s0] (all_neighbors G s0) hconn0 hcand0
  refine ⟨?_, hconn, ?_⟩
  · obtain ⟨t, ht, htlen⟩ :=
      sampleLoop_terminates G pick (n - 1) [s0] (all_neighbors G s0)
    have hlen : l.length ≤ n := by
      rw [hl, ht]
      simp only [List.length_append, List.length_singleton]
      omega
    exact le_trans l.toFinset_card_le hlen
  · intro x hx y hy
    have hx' := List.mem_toFinset.mpr hx
    have hy' := List.mem_toFinset.mpr hy
    exact Relation.ReflTransGen.mono (fun a b hab => hab.2.2)
      (hconn x hx' y hy')

/-- Claim C7, amended to `n ≥ 1`: every successful result of
`sample_connected(G, n)` has at most `n` (distinct) nodes, is
internally connected under undirected adjacency, and its nodes are
pairwise weakly connected (hence lie in a single weakly-connected
component); when the candidates run out early the partial list is still
returned via `Except.ok`, never an error. -/
theorem connected_random_subgraph_ok_spec (G : DiGraph)
    (pickComp : PickComp) (pickStart pickCand : Pick) (n : ℕ) (hn : 1 ≤ n)
    (l : List ℕ)
    (h : connected_random_subgraph G pickComp pickStart pickCand n = Except.ok l) :
    l.toFinset.card ≤ n ∧ connInNX G l.toFinset ∧
      ∀ x ∈ l, ∀ y ∈ l, ReachU G x y := by
  obtain ⟨s0, hl⟩ :=
    connected_random_subgraph_ok_elim G pickComp pickStart pickCand n l h
  exact sample_result_spec G pickCand n hn s0 l hl

/-- A single isolated node. -/
def Gn0 : DiGraph :=
  ⟨[0], []⟩

/-- Counterexample to claim C7 as stated: with `n = 0` the sampler does
not fail (the one-node component has size `1 > 0`) and returns the
one-element node list `[0]`, which violates the claimed bound
`|result| ≤ n = 0`. -/
theorem connected_random_subgraph_n_zero :
    connected_random_subgraph Gn0 headPick minPick minPick 0 = Except.ok [0] ∧
      ¬ (([0] : List ℕ).toFinset.card ≤ 0) :=
  ⟨rfl, by decide⟩

/-- Two nodes joined by one edge. -/
def Gn1 : DiGraph :=
  ⟨[0, 1], [(0, 1, 1)]⟩

/-- Witness instantiating `connected_random_subgraph_ok_spec` on the
two-node graph with `n = 1`. -/
theorem connected_random_subgraph_ok_spec_witness :
    (1 ≤ 1 ∧
        connected_random_subgraph Gn1 headPick minPick minPick 1 = Except.ok [0]) ∧
      (([0] : List ℕ).toFinset.card ≤ 1 ∧ connInNX Gn1 ([0] : List ℕ).toFinset ∧
        ∀ x ∈ ([0] : List ℕ), ∀ y ∈ ([0] : List ℕ), ReachU Gn1 x y) :=
  ⟨⟨le_refl 1, rfl⟩,
    connected_random_subgraph_ok_spec Gn1 headPick minPick minPick 1 (le_refl 1)
      [0] rfl⟩

/-! ## Claim C10: distinctness of the selected sequence -/

/-- Three nodes `0 → 1 → 2` with an additional self-loop at `0`. -/
def Gsl3 : DiGraph :=
  ⟨[0, 1, 2], [(0, 0, 1), (0, 1, 1), (1, 2, 1)]⟩

/-- Counterexample to claim C10 as stated: with a self-loop at the
start node, the initial candidate set `all_neighbors(start)` contains
the start node itself, so one outcome of the draws re-selects it and
the returned sequence `[0, 0]` has a duplicate. -/
theorem connected_random_subgraph_duplicate :
    connected_random_subgraph Gsl3 headPick minPick minPick 2 = Except.ok [0, 0] ∧
      ¬ ([0, 0] : List ℕ).Nodup :=
  ⟨rfl, by decide⟩

/-- Claim C10, amended to graphs without self-loops: the candidate set
and the selected sequence stay disjoint throughout the loop
(`sampleLoop_nodup` is exactly that invariant), so the returned node
sequence is duplicate-free. -/
theorem connected_random_subgraph_nodup (G : DiGraph)
    (hsl : ∀ (v : ℕ) (w : ℚ), (v, v, w) ∉ G.edges)
    (pickComp : PickComp) (pickStart pickCand : Pick) (n : ℕ) (l : List ℕ)
    (h : connected_random_subgraph G pickComp pickStart pickCand n = Except.ok l) :
    l.Nodup := by
  obtain ⟨s0, hl⟩ :=
    connected_random_subgraph_ok_elim G pickComp pickStart pickCand n l h
  rw [hl]
  apply sampleLoop_nodup G pickCand (n - 1) [s0] (all_neighbors G s0)
    (List.nodup_singleton s0)
  intro c hc hc'
  rw [List.mem_singleton] at hc'
  subst hc'
  obtain ⟨w, hw | hw⟩ := (mem_all_neighbors G).mp hc
  · exact hsl c w hw
  · exact hsl c w hw

/-- Witness instantiating `connected_random_subgraph_nodup` on the
self-loop-free graph `Gn1` with `n = 1`. -/
theorem connected_random_subgraph_nodup_witness :
    (∀ (v : ℕ) (w : ℚ), (v, v, w) ∉ Gn1.edges) ∧ ([0] : List ℕ).Nodup :=
  ⟨by
    intro v w hvw
    rw [show Gn1.edges = [(0, 1, 1)] from rfl, List.mem_singleton] at hvw
    have h1 : v = 0 := congrArg Prod.fst hvw
    have h2 : v = 1 := congrArg (fun e => e.2.1) hvw
    omega,
    connected_random_subgraph_nodup Gn1
      (by
        intro v w hvw
        rw [show Gn1.edges = [(0, 1, 1)] from rfl, List.mem_singleton] at hvw
        have h1 : v = 0 := congrArg Prod.fst hvw
        have h2 : v = 1 := congrArg (fun e => e.2.1) hvw
        omega)
      headPick minPick minPick 1 [0] rfl⟩

/-- Witness instantiating `connected_random_subgraph_error_iff` on the
two-node graph with `n = 5` (no component has more than 5 nodes, so the
sampler fails before selecting anything). -/
theorem connected_random_subgraph_error_iff_witness :
    Gn1.closed ∧
      (connected_random_subgraph Gn1 headPick minPick minPick 5 =
        Except.error (insufficientMsg 5)) :=
  ⟨by unfold DiGraph.closed; decide,
    ((connected_random_subgraph_error_iff Gn1 (by unfold DiGraph.closed; decide)
        headPick minPick minPick 5).2).mpr (by decide)⟩

/-! ## Claim C4: `all_neighbors` and self-loops -/

/-- A graph with a self-loop at node `0` and an edge `0 → 1`. -/
def Gsl : DiGraph :=
  ⟨[0, 1], [(0, 0, 1), (0, 1, 1)]⟩

/-- Claim C4 evaluated at the failing input: with a self-loop at
`v = 0`, `all_neighbors(G, 0)` is the plain deduplicated union of
successors and predecessors and contains `0` itself; the exclusion of
`v` demanded by the specification does not happen. -/
theorem all_neighbors_contains_self_loop :
    all_neighbors Gsl 0 = {0, 1} ∧ 0 ∈ all_neighbors Gsl 0 :=
  ⟨by decide, by decide⟩

/-! ## Closeness centrality via Floyd-Warshall

`closeness_centrality_matrix` builds the dense weighted adjacency
matrix `nx.adjacency_matrix(G)` (row/column order = `G.nodes()` order)
and runs `scipy.sparse.csgraph.floyd_warshall(A, directed=True,
unweighted=False)`.  In the scipy csgraph convention a zero entry of
the matrix means "no edge", so a stored weight of `0` is treated as an
absent edge; `D[i][i] = 0`; unreachable pairs are `+∞` (modelled as
`⊤ : WithTop ℚ`). -/

/-- The stored weight of the edge `nodes[i] → nodes[j]` (last write
wins, as in `networkx.DiGraph.add_edge`), for valid indices. -/
def edgeWeightAt (G : DiGraph) (i j : ℕ) : Option ℚ :=
  if i < G.nodes.length ∧ j < G.nodes.length then
    (G.edges.reverse.find? (fun e =>
      e.1 == G.nodes.getD i 0 && e.2.1 == G.nodes.getD j 0)).map (fun e => e.2.2)
  else none

/-- Cell `(i, j)` of the Floyd-Warshall input matrix: `0` on the
diagonal, the edge weight when a non-zero-weight edge exists, `+∞`
otherwise (zero weights mean "no edge" in the csgraph convention). -/
def adjMatrix (G : DiGraph) (i j : ℕ) : WithTop ℚ :=
  if i = j then 0
  else
    match edgeWeightAt G i j with
    | some w => if w = 0 then ⊤ else (w : WithTop ℚ)
    | none => ⊤

/-- `m` rounds of the Floyd-Warshall outer loop (pivots `0 .. m-1`). -/
def fwAux (A : ℕ → ℕ → WithTop ℚ) (m : ℕ) : ℕ → ℕ → WithTop ℚ :=
  (List.range m).foldl (fun D k => fun i j => min (D i j) (D i k + D k j)) A

/-- `scipy.sparse.csgraph.floyd_warshall` on an `n × n` matrix. -/
def floydWarshall (n : ℕ) (A : ℕ → ℕ → WithTop ℚ) : ℕ → ℕ → WithTop ℚ :=
  fwAux A n

/-- `closeness_centrality_matrix(G)` from `graph_library.py`: for each
`node_index`, filter the infinite entries out of row `node_index` of
`D`, sum the remaining shortest-path lengths (`total`), count them
minus one (`n_shortest_paths`, the diagonal entry `D[i][i] = 0` is
finite and is discounted here), and form
`(n_shortest_paths / total) * (n_shortest_paths / (n - 1))` when
`total > 0` and `n > 1`, else `0.0`.  The returned dict maps
`node_list[node_index]` to the score. -/
def closeness_centrality_matrix (G : DiGraph) : List (ℕ × ℚ) :=
  (List.range G.nodes.length).map (fun node_index =>
    let D := floydWarshall G.nodes.length (adjMatrix G)
    let possible_paths := (List.range G.nodes.length).map (fun j => D node_index j)
    let shortest_paths : List ℚ :=
      (possible_paths.filter (fun x => decide (x ≠ ⊤))).map (fun x => x.untop' 0)
    let total : ℚ := shortest_paths.sum
    let n_shortest_paths : ℕ := shortest_paths.length - 1
    let cc : ℚ :=
      if 0 < total ∧ 1 < G.nodes.length then
        let s : ℚ := (n_shortest_paths : ℚ) / ((G.nodes.length : ℚ) - 1)
        ((n_shortest_paths : ℚ) / total) * s
      else 0
    (G.nodes.getD node_index 0, cc))

/-! ## Floyd-Warshall lemmas -/

theorem fwAux_succ (A : ℕ → ℕ → WithTop ℚ) (m : ℕ) (i j : ℕ) :
    fwAux A (m + 1) i j =
      min (fwAux A m i j) (fwAux A m i m + fwAux A m m j) := by
  unfold fwAux
  rw [List.range_succ, List.foldl_append]
  rfl

theorem fwAux_le_init (A : ℕ → ℕ → WithTop ℚ) (m i j : ℕ) :
    fwAux A m i j ≤ A i j := by
  induction m with
  | zero => exact le_refl _
  | succ m ih =>
    rw [fwAux_succ]
    exact le_trans (min_le_left _ _) ih

theorem fwAux_nonneg (A : ℕ → ℕ → WithTop ℚ) (hA : ∀ i j, 0 ≤ A i j)
    (m : ℕ) : ∀ i j, 0 ≤ fwAux A m i j := by
  induction m with
  | zero => exact hA
  | succ m ih =>
    intro i j
    rw [fwAux_succ]
    exact le_min (ih i j) (add_nonneg (ih i m) (ih m j))

theorem fwAux_diag (A : ℕ → ℕ → WithTop ℚ) (hA : ∀ i j, 0 ≤ A i j)
    (hdiag : ∀ i, A i i = 0) (m i : ℕ) : fwAux A m i i = 0 :=
  le_antisymm (le_of_le_of_eq (fwAux_le_init A m i i) (hdiag i))
    (fwAux_nonneg A hA m i i)

/-- Triangle inequality through every already-processed pivot. -/
theorem fwAux_triangle (A : ℕ → ℕ → WithTop ℚ) (hA : ∀ i j, 0 ≤ A i j) :
    ∀ m k, k < m → ∀ i j, fwAux A m i j ≤ fwAux A m i k + fwAux A m k j := by
  intro m
  induction m with
  | zero =>
    intro k hk
    exact absurd hk (Nat.not_lt_zero k)
  | succ m ih =>
    intro k hk i j
    have hD : ∀ i j, 0 ≤ fwAux A m i j := fwAux_nonneg A hA m
    rw [fwAux_succ, fwAux_succ, fwAux_succ]
    by_cases hkm : k = m
    · subst hkm
      have e1 : min (fwAux A k i k) (fwAux A k i k + fwAux A k k k) =
          fwAux A k i k := min_eq_left (le_add_of_nonneg_right (hD k k))
      have e2 : min (fwAux A k k j) (fwAux A k k k + fwAux A k k j) =
          fwAux A k k j := min_eq_left (le_add_of_nonneg_left (hD k k))
      rw [e1, e2]
      exact min_le_right _ _
    · have hk' : k < m := by omega
      rcases min_cases (fwAux A m i k) (fwAux A m i m + fwAux A m m k) with
        ⟨e1, -⟩ | ⟨e1, -⟩ <;>
      rcases min_cases (fwAux A m k j) (fwAux A m k m + fwAux A m m j) with
          ⟨e2, -⟩ | ⟨e2, -⟩ <;>
        rw [e1, e2]
      · exact le_trans (min_le_left _ _) (ih k hk' i j)
      · calc min (fwAux A m i j) (fwAux A m i m + fwAux A m m j) ≤
            fwAux A m i m + fwAux A m m j := min_le_right _ _
          _ ≤ (fwAux A m i k + fwAux A m k m) + fwAux A m m j :=
            add_le_add_right (ih k hk' i m) _
          _ = fwAux A m i k + (fwAux A m k m + fwAux A m m j) := add_assoc _ _ _
      · calc min (fwAux A m i j) (fwAux A m i m + fwAux A m m j) ≤
            fwAux A m i m + fwAux A m m j := min_le_right _ _
          _ ≤ fwAux A m i m + (fwAux A m m k + fwAux A m k j) :=
            add_le_add_left (ih k hk' m j) _
          _ = (fwAux A m i m + fwAux A m m k) + fwAux A m k j :=
            (add_assoc _ _ _).symm
      · calc min (fwAux A m i j) (fwAux A m i m + fwAux A m m j) ≤
            fwAux A m i m + fwAux A m m j := min_le_right _ _
          _ ≤ fwAux A m i m + ((fwAux A m m k + fwAux A m k m) + fwAux A m m j) :=
            add_le_add_left (le_add_of_nonneg_left (add_nonneg (hD m k) (hD k m))) _
          _ = (fwAux A m i m + fwAux A m m k) + (fwAux A m k m + fwAux A m m j) := by
            rw [add_assoc (fwAux A m m k) (fwAux A m k m) (fwAux A m m j),
              ← add_assoc]

/-- Compositions of matrix entries through pivots below `m`: the walks
the first `m` rounds of Floyd-Warshall can see. -/
inductive WalkB (A : ℕ → ℕ → WithTop ℚ) (m : ℕ) : ℕ → ℕ → WithTop ℚ → Prop
  | single (i j : ℕ) : WalkB A m i j (A i j)
  | comp (i k j : ℕ) (c₁ c₂ : WithTop ℚ) (hk : k < m)
      (h₁ : WalkB A m i k c₁) (h₂ : WalkB A m k j c₂) : WalkB A m i j (c₁ + c₂)

theorem fwAux_le_walkB (A : ℕ → ℕ → WithTop ℚ) (hA : ∀ i j, 0 ≤ A i j)
    (m : ℕ) : ∀ i j c, WalkB A m i j c → fwAux A m i j ≤ c := by
  intro i j c hw
  induction hw with
  | single i j => exact fwAux_le_init A m i j
  | comp i k j c₁ c₂ hk h₁ h₂ ih₁ ih₂ =>
    calc fwAux A m i j ≤ fwAux A m i k + fwAux A m k j :=
        fwAux_triangle A hA m k hk i j
      _ ≤ c₁ + c₂ := add_le_add ih₁ ih₂

/-- Cost of a walk, written as a vertex list, read off the matrix `A`
(`⊤` absorbs, so a list that skips a missing edge has cost `⊤`). -/
def walkCost (A : ℕ → ℕ → WithTop ℚ) : List ℕ → WithTop ℚ
  | u :: v :: rest => A u v + walkCost A (v :: rest)
  | _ => 0

/-- `l` is a directed walk from `i` to `j` among the first `n` vertex
indices, each step following a present matrix entry. -/
def IsWalkA (A : ℕ → ℕ → WithTop ℚ) (n : ℕ) (l : List ℕ) (i j : ℕ) : Prop :=
  l.head? = some i ∧ l.getLast? = some j ∧ (∀ x ∈ l, x < n) ∧
    l.Chain' (fun u v => A u v ≠ ⊤)

theorem walkB_of_list (A : ℕ → ℕ → WithTop ℚ) (hdiag : ∀ i, A i i = 0) (m : ℕ) :
    ∀ (l : List ℕ) (i j : ℕ), l.head? = some i → l.getLast? = some j →
      (∀ x ∈ l, x < m) → WalkB A m i j (walkCost A l) := by
  intro l
  induction l with
  | nil =>
    intro i j h
    simp at h
  | cons a t ih =>
    intro i j hhead hlast hmem
    rw [List.head?_cons, Option.some.injEq] at hhead
    subst hhead
    cases t with
    | nil =>
      rw [List.getLast?_singleton, Option.some.injEq] at hlast
      subst hlast
      rw [show walkCost A [a] = (0 : WithTop ℚ) from rfl, ← hdiag a]
      exact WalkB.single a a
    | cons b t' =>
      rw [List.getLast?_cons_cons] at hlast
      have hb : b < m := hmem b (by simp)
      have hw2 := ih b j (by rw [List.head?_cons]) hlast
        (fun x hx => hmem x (List.mem_cons_of_mem a hx))
      rw [show walkCost A (a :: b :: t') = A a b + walkCost A (b :: t') from rfl]
      exact WalkB.comp a b j _ _ hb (WalkB.single a b) hw2

theorem walkCost_cons_cons (A : ℕ → ℕ → WithTop ℚ) (a b : ℕ) (t : List ℕ) :
    walkCost A (a :: b :: t) = A a b + walkCost A (b :: t) := rfl

theorem walkCost_append (A : ℕ → ℕ → WithTop ℚ) :
    ∀ (l1 : List ℕ) (mp : ℕ) (l2 : List ℕ),
      l1.getLast? = some mp → l2.head? = some mp →
      walkCost A (l1 ++ l2.tail) = walkCost A l1 + walkCost A l2 := by
  intro l1
  induction l1 with
  | nil =>
    intro mp l2 h _
    simp at h
  | cons a t ih =>
    intro mp l2 hlast hhead
    cases t with
    | nil =>
      rw [List.getLast?_singleton, Option.some.injEq] at hlast
      subst hlast
      cases l2 with
      | nil => simp at hhead
      | cons b t2 =>
        rw [List.head?_cons, Option.some.injEq] at hhead
        subst hhead
        rw [show walkCost A [b] = (0 : WithTop ℚ) from rfl, zero_add,
          List.singleton_append]
        rfl
    | cons b t' =>
      rw [List.getLast?_cons_cons] at hlast
      rw [List.cons_append, List.cons_append, walkCost_cons_cons, ← List.cons_append,
        ih mp l2 hlast hhead, walkCost_cons_cons, add_assoc]

theorem isWalkA_append (A : ℕ → ℕ → WithTop ℚ) (n : ℕ) :
    ∀ (l1 l2 : List ℕ) (i mp j : ℕ),
      IsWalkA A n l1 i mp → IsWalkA A n l2 mp j →
      IsWalkA A n (l1 ++ l2.tail) i j := by
  rintro l1 l2 i mp j ⟨h1h, h1l, h1m, h1c⟩ ⟨h2h, h2l, h2m, h2c⟩
  obtain ⟨a, t1, rfl⟩ : ∃ a t1, l1 = a :: t1 := by
    cases l1 with
    | nil => simp at h1h
    | cons a t => exact ⟨a, t, rfl⟩
  obtain ⟨b, t2, rfl⟩ : ∃ b t2, l2 = b :: t2 := by
    cases l2 with
    | nil => simp at h2h
    | cons b t => exact ⟨b, t, rfl⟩
  rw [List.head?_cons, Option.some.injEq] at h1h h2h
  subst h1h
  subst h2h
  refine ⟨by rw [List.cons_append, List.head?_cons], ?_, ?_, ?_⟩
  · cases t2 with
    | nil =>
      rw [List.getLast?_singleton, Option.some.injEq] at h2l
      subst h2l
      simpa using h1l
    | cons c t2' =>
      rw [List.getLast?_cons_cons] at h2l
      rw [show (b :: c :: t2').tail = c :: t2' from rfl, List.getLast?_append_cons]
      exact h2l
  · intro x hx
    rcases List.mem_append.mp hx with h | h
    · exact h1m x h
    · exact h2m x (List.tail_subset _ h)
  · rw [List.chain'_append]
    refine ⟨h1c, h2c.tail, ?_⟩
    intro x hx y hy
    rw [h1l, Option.mem_some_iff] at hx
    subst hx
    cases t2 with
    | nil => simp at hy
    | cons c t2' =>
      rw [show (b :: c :: t2').tail = c :: t2' from rfl, List.head?_cons,
        Option.mem_some_iff] at hy
      subst hy
      exact (List.chain'_cons.mp h2c).1

/-- Every finite Floyd-Warshall entry is attained by an actual directed
walk (for a matrix with zero diagonal). -/
theorem fwAux_attained (A : ℕ → ℕ → WithTop ℚ) (hdiag : ∀ i, A i i = 0) (n : ℕ) :
    ∀ m, m ≤ n → ∀ i j, i < n → j < n → fwAux A m i j ≠ ⊤ →
      ∃ l, IsWalkA A n l i j ∧ walkCost A l = fwAux A m i j := by
  intro m
  induction m with
  | zero =>
    intro _ i j hi hj htop
    by_cases hij : i = j
    · subst hij
      refine ⟨[i], ⟨rfl, rfl, ?_, List.chain'_singleton i⟩, ?_⟩
      · intro x hx
        rw [List.mem_singleton] at hx
        exact hx ▸ hi
      · rw [show walkCost A [i] = (0 : WithTop ℚ) from rfl,
          show fwAux A 0 i i = A i i from rfl, hdiag i]
    · refine ⟨[i, j], ⟨rfl, rfl, ?_, ?_⟩, ?_⟩
      · intro x hx
        rcases List.mem_cons.mp hx with h | h
        · exact h ▸ hi
        · rw [List.mem_singleton] at h
          exact h ▸ hj
      · exact List.chain'_cons.mpr ⟨htop, List.chain'_singleton j⟩
      · rw [walkCost_cons_cons, show walkCost A [j] = (0 : WithTop ℚ) from rfl,
          add_zero]
        rfl
  | succ m ih =>
    intro hm i j hi hj htop
    rw [fwAux_succ] at htop ⊢
    rcases min_cases (fwAux A m i j) (fwAux A m i m + fwAux A m m j) with
      ⟨e, -⟩ | ⟨e, -⟩
    · rw [e] at htop ⊢
      exact ih (by omega) i j hi hj htop
    · rw [e] at htop ⊢
      have hm' : m < n := by omega
      have h1 : fwAux A m i m ≠ ⊤ := fun hc => htop (by rw [hc, top_add])
      have h2 : fwAux A m m j ≠ ⊤ := fun hc => htop (by rw [hc, add_top])
      obtain ⟨l1, hw1, hc1⟩ := ih (by omega) i m hi hm' h1
      obtain ⟨l2, hw2, hc2⟩ := ih (by omega) m j hm' hj h2
      exact ⟨l1 ++ l2.tail, isWalkA_append A n l1 l2 i m j hw1 hw2,
        by rw [walkCost_append A l1 m l2 hw1.2.1 hw2.1, hc1, hc2]⟩

theorem adjMatrix_diag (G : DiGraph) (i : ℕ) : adjMatrix G i i = 0 :=
  if_pos rfl

/-- An off-diagonal matrix cell is either `⊤` or the weight of an
actual stored edge between the corresponding nodes. -/
theorem adjMatrix_cases (G : DiGraph) (i j : ℕ) (hij : i ≠ j) :
    adjMatrix G i j = ⊤ ∨
      ∃ e ∈ G.edges, e.1 = G.nodes.getD i 0 ∧ e.2.1 = G.nodes.getD j 0 ∧
        adjMatrix G i j = (e.2.2 : WithTop ℚ) := by
  unfold adjMatrix
  rw [if_neg hij]
  cases heq : edgeWeightAt G i j with
  | none =>
    exact Or.inl rfl
  | some w =>
    by_cases hw0 : w = 0
    · refine Or.inl ?_
      show (if w = 0 then (⊤ : WithTop ℚ) else (w : WithTop ℚ)) = ⊤
      rw [if_pos hw0]
    · have hedge : ∃ e ∈ G.edges, e.1 = G.nodes.getD i 0 ∧
          e.2.1 = G.nodes.getD j 0 ∧ e.2.2 = w := by
        unfold edgeWeightAt at heq
        split at heq
        · rw [Option.map_eq_some'] at heq
          obtain ⟨e, hfind, hw'⟩ := heq
          have hp := List.find?_some hfind
          rw [Bool.and_eq_true, beq_iff_eq, beq_iff_eq] at hp
          exact ⟨e, List.mem_reverse.mp (List.mem_of_find?_eq_some hfind),
            hp.1, hp.2, hw'⟩
        · exact absurd heq (by simp)
      obtain ⟨e, he, he1, he2, hew⟩ := hedge
      refine Or.inr ⟨e, he, he1, he2, ?_⟩
      show (if w = 0 then (⊤ : WithTop ℚ) else (w : WithTop ℚ)) = (e.2.2 : WithTop ℚ)
      rw [if_neg hw0, hew]

theorem adjMatrix_nonneg (G : DiGraph) (hw : ∀ e ∈ G.edges, 0 ≤ e.2.2) :
    ∀ i j, 0 ≤ adjMatrix G i j := by
  intro i j
  by_cases hij : i = j
  · rw [hij, adjMatrix_diag]
  · rcases adjMatrix_cases G i j hij with h | ⟨e, he, -, -, h⟩
    · rw [h]
      exact le_top
    · rw [h]
      exact_mod_cast hw e he

/-- The directed three-node path `A → B → C` (nodes `0 → 1 → 2`). -/
def Gabc : DiGraph :=
  ⟨[0, 1, 2], [(0, 1, 1), (1, 2, 1)]⟩

unseal Rat.add Rat.mul Rat.inv Rat.sub in
/-- Claim C8: the Floyd-Warshall distance matrix honours edge
direction: `D[i][j]` is a lower bound on the cost of every directed
walk from `i` to `j` and is attained by one when finite (so `⊤` means
unreachable); consequently, on the directed path `A → B → C`, `A`'s
closeness score strictly exceeds `C`'s (which is `0`, as `C` reaches
nobody). -/
theorem floyd_warshall_directed (G : DiGraph) (hw : ∀ e ∈ G.edges, 0 ≤ e.2.2) :
    (∀ (i j : ℕ) (l : List ℕ),
        IsWalkA (adjMatrix G) G.nodes.length l i j →
        floydWarshall G.nodes.length (adjMatrix G) i j ≤ walkCost (adjMatrix G) l) ∧
      (∀ i j : ℕ, i < G.nodes.length → j < G.nodes.length →
        floydWarshall G.nodes.length (adjMatrix G) i j ≠ ⊤ →
        ∃ l, IsWalkA (adjMatrix G) G.nodes.length l i j ∧
          walkCost (adjMatrix G) l = floydWarshall G.nodes.length (adjMatrix G) i j) ∧
      ((closeness_centrality_matrix Gabc).getD 2 (0, 0)).2 <
        ((closeness_centrality_matrix Gabc).getD 0 (0, 0)).2 := by
  refine ⟨?_, ?_, by decide⟩
  · intro i j l hwalk
    exact fwAux_le_walkB (adjMatrix G) (adjMatrix_nonneg G hw) G.nodes.length i j _
      (walkB_of_list (adjMatrix G) (adjMatrix_diag G) G.nodes.length l i j
        hwalk.1 hwalk.2.1 hwalk.2.2.1)
  · intro i j hi hj htop
    exact fwAux_attained (adjMatrix G) (adjMatrix_diag G) G.nodes.length
      G.nodes.length (le_refl _) i j hi hj htop

unseal Rat.add Rat.mul Rat.inv Rat.sub in
/-- Witness instantiating `floyd_warshall_directed` on the directed
path `0 → 1 → 2` with unit weights. -/
theorem floyd_warshall_directed_witness :
    (∀ e ∈ Gabc.edges, 0 ≤ e.2.2) ∧
      ((closeness_centrality_matrix Gabc).getD 2 (0, 0)).2 <
        ((closeness_centrality_matrix Gabc).getD 0 (0, 0)).2 :=
  ⟨by decide, (floyd_warshall_directed Gabc (by decide)).2.2⟩

/-- Two nodes joined by an edge of weight `1/2`. -/
def Ghalf : DiGraph :=
  ⟨[0, 1], [(0, 1, 1/2)]⟩

unseal Rat.add Rat.mul Rat.inv Rat.sub in
/-- Counterexample to claim C2 as stated: with the single edge
`0 → 1` of weight `1/2`, node `0`'s closeness score is
`(1 / 0.5) * (1 / 1) = 2 > 1`; the scores are not confined to `[0, 1]`
when edge weights below `1` occur. -/
theorem closeness_score_exceeds_one :
    closeness_centrality_matrix Ghalf = [(0, 2), (1, 0)] ∧ ¬ ((2 : ℚ) ≤ 1) :=
  ⟨by decide, by decide⟩

theorem adjMatrix_one_le (G : DiGraph) (hw : ∀ e ∈ G.edges, 1 ≤ e.2.2) :
    ∀ i j, i ≠ j → 1 ≤ adjMatrix G i j := by
  intro i j hij
  rcases adjMatrix_cases G i j hij with h | ⟨e, he, -, -, h⟩
  · rw [h]
    exact le_top
  · rw [h]
    exact_mod_cast hw e he

/-- With every matrix entry at least `1` off the diagonal (and `0` on
it), every finite off-diagonal Floyd-Warshall distance stays at least
`1`. -/
theorem fwAux_one_le (A : ℕ → ℕ → WithTop ℚ) (hA : ∀ i j, 0 ≤ A i j)
    (hdiag : ∀ i, A i i = 0) (h1 : ∀ i j, i ≠ j → 1 ≤ A i j) :
    ∀ m i j, i ≠ j → 1 ≤ fwAux A m i j := by
  intro m
  induction m with
  | zero => exact h1
  | succ r ih =>
    intro i j hij
    rw [fwAux_succ]
    refine le_min (ih i j hij) ?_
    by_cases hri : r = i
    · have e : fwAux A r i r + fwAux A r r j = fwAux A r i i + fwAux A r i j := by
        rw [hri]
      rw [e, fwAux_diag A hA hdiag, zero_add]
      exact ih i j hij
    · by_cases hrj : r = j
      · have e : fwAux A r i r + fwAux A r r j = fwAux A r i j + fwAux A r j j := by
          rw [hrj]
        rw [e, fwAux_diag A hA hdiag, add_zero]
        exact ih i j hij
      · calc (1 : WithTop ℚ) ≤ fwAux A r i r := ih i r (fun hc => hri hc.symm)
          _ ≤ fwAux A r i r + fwAux A r r j :=
            le_add_of_nonneg_right (fwAux_nonneg A hA r r j)

/-- Filtering `⊤` out of a mapped row and extracting the finite values
is the same as filtering the indices. -/
theorem filter_top_map (n : ℕ) (f : ℕ → WithTop ℚ) :
    (((List.range n).map f).filter (fun x => decide (x ≠ ⊤))).map
        (fun x => x.untop' 0) =
      ((List.range n).filter (fun j => decide (f j ≠ ⊤))).map
        (fun j => (f j).untop' 0) := by
  rw [List.filter_map, List.map_map]
  rfl

theorem le_sum_of_one_le :
    ∀ l : List ℚ, (∀ x ∈ l, 1 ≤ x) → (l.length : ℚ) ≤ l.sum := by
  intro l
  induction l with
  | nil =>
    intro _
    simp
  | cons a t ih =>
    intro h
    rw [List.sum_cons, List.length_cons]
    push_cast
    have ht := ih (fun x hx => h x (List.mem_cons_of_mem a hx))
    have ha := h a (List.mem_cons_self a t)
    linarith

theorem one_le_untop' {x : WithTop ℚ} (hx : x ≠ ⊤) (h1 : 1 ≤ x) :
    1 ≤ x.untop' 0 := by
  induction x using WithTop.recTopCoe with
  | top => exact absurd rfl hx
  | coe a =>
    rw [WithTop.untop'_coe]
    exact_mod_cast h1

/-- Claim C2, amended: every closeness score is nonnegative, and all
scores lie in `[0, 1]` whenever every edge weight is at least `1`
(with a weight below `1`, e.g. `1/2`, a score can exceed `1`). -/
theorem closeness_centrality_bounds (G : DiGraph) :
    (∀ p ∈ closeness_centrality_matrix G, 0 ≤ p.2) ∧
      ((∀ e ∈ G.edges, 1 ≤ e.2.2) →
        ∀ p ∈ closeness_centrality_matrix G, p.2 ≤ 1) := by
  constructor
  · intro p hp
    unfold closeness_centrality_matrix at hp
    obtain ⟨i, hi, rfl⟩ := List.mem_map.mp hp
    dsimp only
    split
    · next hc =>
      have hn1 : (1 : ℚ) ≤ (G.nodes.length : ℚ) := by
        exact_mod_cast Nat.one_le_of_lt hc.2
      exact mul_nonneg (div_nonneg (Nat.cast_nonneg _) (le_of_lt hc.1))
        (div_nonneg (Nat.cast_nonneg _) (by linarith))
    · exact le_refl 0
  · intro hw1 p hp
    unfold closeness_centrality_matrix at hp
    obtain ⟨i, hi, rfl⟩ := List.mem_map.mp hp
    rw [List.mem_range] at hi
    dsimp only
    rw [filter_top_map]
    split
    · next hc =>
      set n := G.nodes.length with hn
      set D := floydWarshall n (adjMatrix G) with hDdef
      set jl := (List.range n).filter (fun j => decide (D i j ≠ ⊤)) with hjl
      set q : ℕ → ℚ := fun j => (D i j).untop' 0 with hq
      have hA0 : ∀ a b, 0 ≤ adjMatrix G a b :=
        adjMatrix_nonneg G (fun e he => le_trans zero_le_one (hw1 e he))
      have hDdiag : D i i = 0 :=
        fwAux_diag (adjMatrix G) hA0 (adjMatrix_diag G) n i
      have hD1 : ∀ j, i ≠ j → 1 ≤ D i j := fun j hj =>
        fwAux_one_le (adjMatrix G) hA0 (adjMatrix_diag G)
          (adjMatrix_one_le G hw1) n i j hj
      have hjlnd : jl.Nodup := (List.nodup_range n).filter _
      have hijl : i ∈ jl := by
        rw [hjl, List.mem_filter]
        exact ⟨List.mem_range.mpr hi, by simp [hDdiag]⟩
      have hperm : jl.Perm (i :: jl.erase i) := List.perm_cons_erase hijl
      have hsum : (jl.map q).sum = q i + ((jl.erase i).map q).sum := by
        rw [(hperm.map q).sum_eq, List.map_cons, List.sum_cons]
      have hqi : q i = 0 := by
        rw [hq]
        dsimp only
        rw [hDdiag]
        rfl
      have hone : ∀ x ∈ (jl.erase i).map q, 1 ≤ x := by
        intro x hx
        obtain ⟨j, hjmem, rfl⟩ := List.mem_map.mp hx
        have hj2 := List.Nodup.mem_erase_iff hjlnd |>.mp hjmem
        have hjl' := List.mem_filter.mp hj2.2
        have htop : D i j ≠ ⊤ := of_decide_eq_true hjl'.2
        exact one_le_untop' htop (hD1 j (fun hc' => hj2.1 hc'.symm))
      have hlen_le : (((jl.erase i).map q).length : ℚ) ≤ ((jl.erase i).map q).sum :=
        le_sum_of_one_le _ hone
      rw [List.length_map] at hlen_le
      have hel : (jl.erase i).length = jl.length - 1 :=
        List.length_erase_of_mem hijl
      have hjln : jl.length ≤ n := by
        have := List.length_filter_le (fun j => decide (D i j ≠ ⊤)) (List.range n)
        rw [List.length_range] at this
        exact this
      have hjlpos : 0 < jl.length := List.length_pos_of_mem hijl
      have hcnt : (jl.map q).length - 1 = (jl.erase i).length := by
        rw [List.length_map, hel]
      rw [hcnt]
      have htot : (jl.map q).sum = ((jl.erase i).map q).sum := by
        rw [hsum, hqi, zero_add]
      rw [htot]
      have hc1 : (0 : ℚ) < ((jl.erase i).map q).sum := by
        rw [← htot]
        exact hc.1
      have d1 : ((jl.erase i).length : ℚ) / ((jl.erase i).map q).sum ≤ 1 :=
        (div_le_one hc1).mpr hlen_le
      have hn2 : (1 : ℚ) < (n : ℚ) := by exact_mod_cast hc.2
      have d2 : ((jl.erase i).length : ℚ) / ((n : ℚ) - 1) ≤ 1 := by
        apply (div_le_one (by linarith)).mpr
        have hnn : (jl.erase i).length + 1 ≤ n := by omega
        have hnn' : ((jl.erase i).length : ℚ) + 1 ≤ (n : ℚ) := by
          exact_mod_cast hnn
        linarith
      calc ((jl.erase i).length : ℚ) / ((jl.erase i).map q).sum *
            (((jl.erase i).length : ℚ) / ((n : ℚ) - 1)) ≤ 1 * 1 :=
          mul_le_mul d1 d2 (div_nonneg (Nat.cast_nonneg _) (by linarith))
            zero_le_one
        _ = 1 := one_mul 1
    · exact zero_le_one

/-- Witness instantiating `closeness_centrality_bounds` on the
two-node unit-weight graph. -/
theorem closeness_centrality_bounds_witness :
    (∀ e ∈ Gn1.edges, 1 ≤ e.2.2) ∧
      ∀ p ∈ closeness_centrality_matrix Gn1, 0 ≤ p.2 ∧ p.2 ≤ 1 := by
  have hw1 : ∀ e ∈ Gn1.edges, 1 ≤ e.2.2 := by
    intro e he
    rw [show Gn1.edges = [(0, 1, 1)] from rfl, List.mem_singleton] at he
    rw [he]
  have hb := closeness_centrality_bounds Gn1
  exact ⟨hw1, fun p hp => ⟨hb.1 p hp, hb.2 hw1 p hp⟩⟩

/-- The closeness score as worded by the specification (§4.5 step 4) —
the refinement reference for claim C3:
`reachable = { D[i][j] : j ≠ i, D[i][j] < infinity }`,
`total = sum(reachable)`, `count = |reachable|`, and the score is
`(count / total) * (count / (n - 1))` if `total > 0` and `n > 1`,
else `0.0`. -/
def closenessSpec (G : DiGraph) (i : ℕ) : ℚ :=
  let n := G.nodes.length
  let D := floydWarshall n (adjMatrix G)
  let reachable := (List.range n).filter
    (fun j => decide (j ≠ i) && decide (D i j ≠ ⊤))
  let total : ℚ := (reachable.map (fun j => (D i j).untop' 0)).sum
  let count : ℕ := reachable.length
  if 0 < total ∧ 1 < n then
    ((count : ℚ) / total) * ((count : ℚ) / ((n : ℚ) - 1))
  else 0

/-- A row of the matrix whose vertex has no outgoing edges stays
`(0, ⊤, ⊤, …)` through all rounds of Floyd-Warshall. -/
theorem fwAux_row_isolated (A : ℕ → ℕ → WithTop ℚ) (i : ℕ)
    (hdiagi : A i i = 0) (hrow : ∀ j, j ≠ i → A i j = ⊤) :
    ∀ m, fwAux A m i i = 0 ∧ ∀ j, j ≠ i → fwAux A m i j = ⊤ := by
  intro m
  induction m with
  | zero => exact ⟨hdiagi, hrow⟩
  | succ r ih =>
    obtain ⟨ihd, iht⟩ := ih
    constructor
    · rw [fwAux_succ]
      by_cases hri : r = i
      · have e : fwAux A r i r + fwAux A r r i = fwAux A r i i + fwAux A r i i := by
          rw [hri]
        rw [e, ihd, add_zero, min_self]
      · rw [iht r hri, top_add, min_eq_left le_top]
        exact ihd
    · intro j hj
      rw [fwAux_succ]
      by_cases hri : r = i
      · have e : fwAux A r i r + fwAux A r r j = fwAux A r i i + fwAux A r i j := by
          rw [hri]
        rw [e, ihd, zero_add, iht j hj, min_self]
      · rw [iht r hri, top_add, iht j hj, min_self]

/-- Claim C3: the score stored for row `i` is exactly the
specification's formula over the distance matrix (the implementation's
`len(shortest_paths) - 1` and whole-row sum agree with the spec's
`j ≠ i` set because the diagonal entry is the finite `0`); and an
isolated node receives the score `0.0`. -/
theorem closeness_centrality_formula (G : DiGraph)
    (hw : ∀ e ∈ G.edges, 0 ≤ e.2.2) (i : ℕ) (hi : i < G.nodes.length) :
    (closeness_centrality_matrix G)[i]? =
        some (G.nodes.getD i 0, closenessSpec G i) ∧
      ((∀ (u : ℕ) (w : ℚ), (G.nodes.getD i 0, u, w) ∉ G.edges ∧
          (u, G.nodes.getD i 0, w) ∉ G.edges) →
        closenessSpec G i = 0) := by
  have hA0 : ∀ a b, 0 ≤ adjMatrix G a b := adjMatrix_nonneg G hw
  constructor
  · unfold closeness_centrality_matrix
    rw [List.getElem?_map, List.getElem?_range hi, Option.map_some']
    refine congrArg some (Prod.ext rfl ?_)
    dsimp only
    rw [filter_top_map]
    unfold closenessSpec
    dsimp only
    set n := G.nodes.length with hn
    set D := floydWarshall n (adjMatrix G) with hDdef
    set jl := (List.range n).filter (fun j => decide (D i j ≠ ⊤)) with hjl
    set q : ℕ → ℚ := fun j => (D i j).untop' 0 with hq
    have hDdiag : D i i = 0 :=
      fwAux_diag (adjMatrix G) hA0 (adjMatrix_diag G) n i
    have hjlnd : jl.Nodup := (List.nodup_range n).filter _
    have hijl : i ∈ jl := by
      rw [hjl, List.mem_filter]
      exact ⟨List.mem_range.mpr hi, by simp [hDdiag]⟩
    have herase : jl.erase i = (List.range n).filter
        (fun j => decide (j ≠ i) && decide (D i j ≠ ⊤)) := by
      rw [List.Nodup.erase_eq_filter hjlnd, hjl, List.filter_filter]
      congr 1
      funext j
      by_cases hji : j = i
      · subst hji
        simp
      · simp [hji, Bool.and_comm]
    have hperm : jl.Perm (i :: jl.erase i) := List.perm_cons_erase hijl
    have hqi : q i = 0 := by
      rw [hq]
      dsimp only
      rw [hDdiag]
      rfl
    have htot : (jl.map q).sum = ((jl.erase i).map q).sum := by
      rw [(hperm.map q).sum_eq, List.map_cons, List.sum_cons, hqi, zero_add]
    have hcnt : (jl.map q).length - 1 = (jl.erase i).length := by
      rw [List.length_map, List.length_erase_of_mem hijl]
    rw [htot, hcnt, herase]
  · intro hiso
    have hrow : ∀ j, j ≠ i → adjMatrix G i j = ⊤ := by
      intro j hj
      rcases adjMatrix_cases G i j (fun hc => hj hc.symm) with h | ⟨e, he, he1, -, -⟩
      · exact h
      · exfalso
        have hee : (e.1, e.2.1, e.2.2) = e := rfl
        rw [he1] at hee
        exact (hiso e.2.1 e.2.2).1 (hee ▸ he)
    have hDrow := fwAux_row_isolated (adjMatrix G) i (adjMatrix_diag G i) hrow
      G.nodes.length
    unfold closenessSpec
    dsimp only
    have hempty : (List.range G.nodes.length).filter
        (fun j => decide (j ≠ i) &&
          decide (floydWarshall G.nodes.length (adjMatrix G) i j ≠ ⊤)) = [] := by
      rw [List.filter_eq_nil_iff]
      intro j _
      rw [Bool.and_eq_true, decide_eq_true_eq, decide_eq_true_eq]
      rintro ⟨hj, htop⟩
      exact htop (hDrow.2 j hj)
    rw [hempty]
    simp

/-- Witness instantiating `closeness_centrality_formula` on the
one-node graph (whose single node is isolated, score `0`). -/
theorem closeness_centrality_formula_witness :
    ((∀ e ∈ Gn0.edges, 0 ≤ e.2.2) ∧ 0 < Gn0.nodes.length) ∧
      closenessSpec Gn0 0 = 0 :=
  ⟨⟨by simp [Gn0], by decide⟩,
    (closeness_centrality_formula Gn0 (by simp [Gn0]) 0 (by decide)).2
      (by
        intro u w
        constructor <;> intro hc <;> simp [Gn0] at hc)⟩

end Stonks
